import Mathlib

/-!
Verification of the TikTokLive verse-relay system.

The repository has two halves:
* a Node server (`src/server.js`, with an equivalent copy in `src/unnamed/part_001`)
  that detects verse references in chat, rate-limits them and broadcasts them, and
* a browser client (first half of `src/unnamed/part_000`) that queues broadcast
  references, canonicalizes them, resolves verse text and plays them sequentially.

JavaScript strings are modelled as lists of UTF-16 code units (`List Nat`),
which is exactly what a JS string is; all character classes of the regexes
involved are modelled at the code-unit level.  JS `number` arithmetic on
`Date.now()` timestamps is modelled with `Int` (exact for all values that
occur; every quantity involved is far below 2^53).
-/

set_option autoImplicit false
set_option maxRecDepth 8000

/-- A JavaScript string: its sequence of UTF-16 code units. -/
abbrev JSStr := List Nat

/-- Code units of a Lean string literal (all literals used are ASCII/BMP). -/
def codes (s : String) : JSStr := s.data.map Char.toNat

/-! ## Character classes (code-unit level) -/

/-- JS regex `\d` / character class `0-9`. -/
def isDigitU (n : Nat) : Bool := decide (48 ≤ n ∧ n ≤ 57)

/-- ASCII upper-case letter `A-Z`. -/
def isUpperU (n : Nat) : Bool := decide (65 ≤ n ∧ n ≤ 90)

/-- ASCII lower-case letter `a-z`. -/
def isLowerU (n : Nat) : Bool := decide (97 ≤ n ∧ n ≤ 122)

/-- The class `[a-zA-Z]`, which is also what `[a-z]` with the `i` flag matches. -/
def isLetterU (n : Nat) : Bool := isUpperU n || isLowerU n

/-- The class `[0-9a-zA-Z]` of `VERSE_RE`. -/
def isAlnumU (n : Nat) : Bool := isDigitU n || isLetterU n

/-- JS `\w` (the class used by the `\b` assertion): `[A-Za-z0-9_]`. -/
def isWordU (n : Nat) : Bool := isAlnumU n || n == 95

/-- JS `\s` (and the set stripped by `String.prototype.trim`):
tab, LF, VT, FF, CR, space, NBSP, and the Unicode space separators,
LINE/PARAGRAPH SEPARATOR and BOM. -/
def isWsU (n : Nat) : Bool :=
  decide (n = 9 ∨ n = 10 ∨ n = 11 ∨ n = 12 ∨ n = 13 ∨ n = 32 ∨ n = 160 ∨
    n = 5760 ∨ (8192 ≤ n ∧ n ≤ 8202) ∨ n = 8232 ∨ n = 8233 ∨ n = 8239 ∨
    n = 8287 ∨ n = 12288 ∨ n = 65279)

/-- JS `String.prototype.toLowerCase` restricted to ASCII (the only range the
pipeline's behavior depends on): `A-Z` maps to `a-z`, everything else is fixed. -/
def toLowerU (n : Nat) : Nat := if 65 ≤ n ∧ n ≤ 90 then n + 32 else n

/-- JS `String.prototype.toUpperCase` restricted to ASCII. -/
def toUpperU (n : Nat) : Nat := if 97 ≤ n ∧ n ≤ 122 then n - 32 else n

/-- What the regex `.` (dot, without the `s` flag) matches: anything except a
line terminator. -/
def isDotU (n : Nat) : Bool := !decide (n = 10 ∨ n = 13 ∨ n = 8232 ∨ n = 8233)

/-! ## String helpers shared by server and client

`String.prototype.trim`, `.toLowerCase()`, `.replace(/\s+/g,' ')`. -/

/-- `String.prototype.trim`: drop whitespace from both ends. -/
def jsTrim (l : JSStr) : JSStr :=
  ((l.dropWhile isWsU).reverse.dropWhile isWsU).reverse

/-- `String.prototype.toLowerCase` (ASCII model). -/
def lowerStr (l : JSStr) : JSStr := l.map toLowerU

/-- Worker for `.replace(/\s+/g, ' ')`: the flag says whether we are inside a
whitespace run whose single replacement space has already been emitted. -/
def collapseGo : Bool → JSStr → JSStr
  | _, [] => []
  | inWs, c :: rest =>
    if isWsU c then
      if inWs then collapseGo true rest else 32 :: collapseGo true rest
    else c :: collapseGo false rest

/-- `.replace(/\s+/g, ' ')`: every maximal whitespace run becomes one space. -/
def collapseWs (l : JSStr) : JSStr := collapseGo false l

/-! ## Verse detection (src/server.js line 56 and 63)

```js
const VERSE_RE = /\b[0-9a-zA-Z]+\s+\d{1,3}:\d{1,3}(?:-\d{1,3})?\b/i;
const looksLikeVerse = (s='') => VERSE_RE.test(s);
```

`RegExp.test` asks whether the pattern matches anywhere, i.e. whether there
EXISTS a start position and a way to expand each quantifier that matches; the
backtracking engine explores exactly those choices.  The embedding below is
that existential search, written with explicit continuations:
`plusThen p l k` tries every non-empty `p`-prefix of `l` (the `+` quantifier),
`digitsThen k`/`anyLen13` try the 1, 2 and 3 digit expansions of `\d{1,3}`,
and the `\b` assertions become checks on the neighboring code unit. -/

/-- Match `p+` at the head of `l`, then continue with `cont` (tries every
possible split, which is what backtracking makes `test` do). -/
def plusThen (p : Nat → Bool) (l : JSStr) (cont : JSStr → Bool) : Bool :=
  match l with
  | [] => false
  | c :: rest => p c && (cont rest || plusThen p rest cont)

/-- Match exactly `k` digits at the head of `l`, then continue with `cont`. -/
def digitsThen (k : Nat) (l : JSStr) (cont : JSStr → Bool) : Bool :=
  (l.take k).length == k && (l.take k).all isDigitU && cont (l.drop k)

/-- Match `\d{1,3}` at the head of `l`, then continue with `cont`. -/
def anyLen13 (l : JSStr) (cont : JSStr → Bool) : Bool :=
  digitsThen 1 l cont || digitsThen 2 l cont || digitsThen 3 l cont

/-- The trailing `\b` of `VERSE_RE`: the preceding unit is a digit (a word
character), so the boundary holds iff the next unit is absent or non-word. -/
def boundaryAfter (l : JSStr) : Bool :=
  match l with
  | [] => true
  | c :: _ => !isWordU c

/-- The expanded optional group `-\d{1,3}` followed by the trailing `\b`. -/
def dashTail (l : JSStr) : Bool :=
  match l with
  | c :: r => c == 45 && anyLen13 r boundaryAfter
  | [] => false

/-- After `\d{1,3}:\d{1,3}`: either the optional group is skipped and the
trailing `\b` is checked right here, or `-\d{1,3}` is matched first. -/
def afterVerse (l : JSStr) : Bool := boundaryAfter l || dashTail l

/-- `[0-9a-zA-Z]+\s+\d{1,3}:\d{1,3}(?:-\d{1,3})?\b` anchored at the head of `l`
(58 is `:`). -/
def matchHere (l : JSStr) : Bool :=
  plusThen isAlnumU l fun r1 =>
    plusThen isWsU r1 fun r2 =>
      anyLen13 r2 fun r3 =>
        match r3 with
        | c :: r4 => c == 58 && anyLen13 r4 afterVerse
        | [] => false

/-- Scan all start positions; `bOk` says whether the leading `\b` holds here
(true at the string start iff tracked from the previous unit otherwise). -/
def detectFrom (bOk : Bool) (l : JSStr) : Bool :=
  (bOk && matchHere l) ||
    (match l with
     | [] => false
     | c :: rest => detectFrom (!isWordU c) rest)

/-- `looksLikeVerse` / `VERSE_RE.test`: at the start of the string the leading
`\b` holds for any word character, so the initial flag is `true`. -/
def looksLikeVerse (l : JSStr) : Bool := detectFrom true l

/-! ### Spec-side detection predicates (for claim C4)

`containsVerseToken` is the claim's wording taken literally: the text contains
a substring of the form `word whitespace 1-3digits : 1-3digits (-1-3digits)?`,
with no condition on the surrounding characters.  `containsVerseTokenB` adds
the two word-boundary conditions that `VERSE_RE`'s `\b` assertions impose. -/

/-- A 1-3 digit group. -/
def chunk13 (d : JSStr) : Prop := d ≠ [] ∧ d.length ≤ 3 ∧ ∀ c ∈ d, isDigitU c = true

/-- The mandatory part of the token: word, whitespace, chapter, `:`, verse. -/
def tokenCore (w sp c1 v1 : JSStr) : Prop :=
  w ≠ [] ∧ (∀ c ∈ w, isAlnumU c = true) ∧
  sp ≠ [] ∧ (∀ c ∈ sp, isWsU c = true) ∧
  chunk13 c1 ∧ chunk13 v1

/-- Claim C4 as written: some substring is one alphanumeric word, whitespace,
a 1-3 digit chapter, `:`, a 1-3 digit verse, optionally `-` and 1-3 digits. -/
def containsVerseToken (s : JSStr) : Prop :=
  ∃ pre w sp c1 v1 tl post,
    s = pre ++ w ++ sp ++ c1 ++ 58 :: v1 ++ tl ++ post ∧
    tokenCore w sp c1 v1 ∧
    (tl = [] ∨ ∃ v2, tl = 45 :: v2 ∧ chunk13 v2)

/-- The part before the token may not end in a word character (`\b`). -/
def noWordEnd (pre : JSStr) : Prop := ∀ c, pre.getLast? = some c → isWordU c = false

/-- The part after the match may not begin with a word character (`\b`). -/
def noWordStart (post : JSStr) : Prop := ∀ c, post.head? = some c → isWordU c = false

/-- The boundary-respecting version of the token-containment predicate:
additionally the word is not preceded by a word character, and the digits the
match ends with are not followed by a word character. -/
def containsVerseTokenB (s : JSStr) : Prop :=
  ∃ pre w sp c1 v1 rest,
    s = pre ++ w ++ sp ++ c1 ++ 58 :: v1 ++ rest ∧
    tokenCore w sp c1 v1 ∧ noWordEnd pre ∧
    (noWordStart rest ∨
      ∃ v2 rest2, rest = 45 :: v2 ++ rest2 ∧ chunk13 v2 ∧ noWordStart rest2)

/-! ## Range clamping (src/server.js lines 64-73)

```js
const MAX_RANGE_SPAN = 5;
function clampRange(ref) {
  const m = (ref||'').match(/^(.*?:)(\d+)-(\d+)$/i);
  if (!m) return ref;
  const [, p, a, b] = m;
  const A = +a, B = +b;
  if (Number.isFinite(A) && Number.isFinite(B) && B - A > MAX_RANGE_SPAN) {
    return `${p}${A}-${A + MAX_RANGE_SPAN}`;
  }
  return ref;
}
```

`^(.*?:)(\d+)-(\d+)$`: a lazy prefix of dot-matchable units up to a `:` whose
entire remainder is `digits-digits`.  Laziness picks the first such colon
(`findColonSplit` scans left to right); since the remainder after a matching
colon contains no further `:`, the matching colon is in fact unique.  The
greedy `(\d+)` before `-` must be the maximal digit run (a shorter choice is
followed by a digit, not `-`).  Digit strings are parsed exactly (`Nat`), which
agrees with JS float parsing for every value below 2^53 — vastly beyond any
verse number — and `Number.isFinite` is then always true. -/

def MAX_RANGE_SPAN : Nat := 5

/-- Match `(\d+)-(\d+)$` against all of `l` (45 is `-`): the leading maximal
digit run, then `-`, then a non-empty all-digit remainder. -/
def matchDashDigits (l : JSStr) : Option (JSStr × JSStr) :=
  let a := l.takeWhile isDigitU
  if a = [] then none
  else
    match l.dropWhile isDigitU with
    | c :: r => if c = 45 ∧ r ≠ [] ∧ r.all isDigitU then some (a, r) else none
    | [] => none

/-- The lazy scan of `^(.*?:)`: at each `:` (58) try `(\d+)-(\d+)$` on the
remainder; units consumed by `.*?` must be dot-matchable.  Returns the groups
`(p, a, b)` with `p` including its final colon. -/
def findColonSplit : JSStr → Option (JSStr × JSStr × JSStr)
  | [] => none
  | c :: rest =>
    if c = 58 then
      match matchDashDigits rest with
      | some (a, b) => some ([58], a, b)
      | none =>
        match findColonSplit rest with
        | some (p, a, b) => some (58 :: p, a, b)
        | none => none
    else
      if isDotU c then
        match findColonSplit rest with
        | some (p, a, b) => some (c :: p, a, b)
        | none => none
      else none

/-- Exact numeric value of a digit string. -/
def digitsVal (l : JSStr) : Nat := l.foldl (fun acc c => acc * 10 + (c - 48)) 0

/-- IEEE-754 round-to-nearest-even of the integer `v` to a double significand
(53 bits), with unbounded exponent: values below `2^53` are exact; above, `v`
is rounded to the nearest multiple of `2^(⌊log2 v⌋ - 52)`, ties to the even
multiple.  A result at or above `2^1024` means the double overflowed to
`Infinity` (per IEEE, overflow is checked after rounding with unbounded
exponent, which this reproduces). -/
def roundDouble (v : Nat) : Nat :=
  if v < 2 ^ 53 then v
  else
    let e := Nat.log2 v - 52
    let q := v / 2 ^ e
    let r := v % 2 ^ e
    let half := 2 ^ (e - 1)
    let q2 := if r < half then q else if half < r then q + 1 else q + q % 2
    q2 * 2 ^ e

/-- The double produced by `+a` for a digit string `a`: the decimal value
rounded to the nearest double.  `Number.isFinite` of it is `jsNumVal a < 2^1024`. -/
def jsNumVal (l : JSStr) : Nat := roundDouble (digitsVal l)

/-- IEEE subtraction of two integer-valued doubles: the exact difference,
rounded back to a double. -/
def subDouble (x y : Nat) : Int :=
  let d : Int := (x : Int) - (y : Int)
  if d < 0 then -(roundDouble d.natAbs : Int) else (roundDouble d.natAbs : Int)

/-- Code units of the exact decimal printing of `n` (the template `${A}`).
JS prints the shortest decimal that round-trips; for an integer-valued double
below `2^53` that is exactly this decimal, and the theorems below evaluate
the printout only in that range. -/
def natCodes (n : Nat) : JSStr := (Nat.repr n).data.map Char.toNat

/-- `clampRange`: `A` and `B` are the parsed doubles, the guard is
`Number.isFinite(A) && Number.isFinite(B) && B - A > MAX_RANGE_SPAN` with
IEEE subtraction, and the rewrite prints `A` and the IEEE sum
`A + MAX_RANGE_SPAN`. -/
def clampRange (ref : JSStr) : JSStr :=
  match findColonSplit ref with
  | none => ref
  | some (p, a, b) =>
    let A := jsNumVal a
    let B := jsNumVal b
    if A < 2 ^ 1024 ∧ B < 2 ^ 1024 ∧ subDouble B A > (MAX_RANGE_SPAN : Int) then
      p ++ natCodes A ++ 45 :: natCodes (roundDouble (A + MAX_RANGE_SPAN))
    else ref

/-! ## Admission controller (src/server.js lines 57-82)

```js
const USER_COOLDOWN_MS = 75_000;
const GLOBAL_MIN_INTERVAL_MS = 12_000;
const recentUsers = new Map(); // userId -> lastTime
let lastGlobal = 0;
function allowedToEnqueue(userId) {
  const now = Date.now();
  if (now - lastGlobal < GLOBAL_MIN_INTERVAL_MS) return false;
  const prev = recentUsers.get(userId) || 0;
  if (now - prev < USER_COOLDOWN_MS) return false;
  recentUsers.set(userId, now);
  lastGlobal = now;
  return true;
}
```
The mutable module state is made explicit as `AdmState`; `Date.now()` becomes
the explicit parameter `now`. -/

def USER_COOLDOWN_MS : Int := 75000

def GLOBAL_MIN_INTERVAL_MS : Int := 12000

/-- The server's throttle state: `lastGlobal` and the `recentUsers` map
(`Map.get` returning `undefined` for an unseen key is `none`). -/
structure AdmState where
  lastGlobal : Int
  recentUsers : JSStr → Option Int

/-- The state at process start: `let lastGlobal = 0` and an empty `Map`. -/
def initAdmState : AdmState := ⟨0, fun _ => none⟩

/-- `allowedToEnqueue(userId)` at time `now` in state `st`: the boolean result
together with the (possibly updated) state.  `recentUsers.get(userId) || 0`
is `(st.recentUsers userId).getD 0` (a stored `0` is falsy and also yields `0`). -/
def allowedToEnqueue (userId : JSStr) (now : Int) (st : AdmState) : Bool × AdmState :=
  if now - st.lastGlobal < GLOBAL_MIN_INTERVAL_MS then (false, st)
  else
    let prev := (st.recentUsers userId).getD 0
    if now - prev < USER_COOLDOWN_MS then (false, st)
    else (true, ⟨now, fun u => if u = userId then some now else st.recentUsers u⟩)

/-! ## Chat handler (src/server.js lines 108-125)

```js
tiktok.on('chat', (data) => {
  const userId = String(data?.userId || data?.uniqueId || 'anon');
  const text = String(data?.comment || '').trim();
  if (!looksLikeVerse(text)) return;
  if (!allowedToEnqueue(userId)) return;
  const norm = text.replace(/([a-zA-Z])(\d)/, '$1 $2');
  const safe = clampRange(norm);
  broadcast({ type: 'read', ref: safe, user: ... });
});
```
-/

/-- `text.replace(/([a-zA-Z])(\d)/, '$1 $2')`: a single space is inserted at
the FIRST letter-digit adjacency only (the regex is not global). -/
def normalizeInline : JSStr → JSStr
  | [] => []
  | [c] => [c]
  | c :: d :: rest =>
    if isLetterU c && isDigitU d then c :: 32 :: d :: rest
    else c :: normalizeInline (d :: rest)

/-- One chat event: returns the broadcast reference (if any) and the throttle
state afterwards. -/
def chatHandle (comment userId : JSStr) (now : Int) (st : AdmState) :
    Option JSStr × AdmState :=
  let text := jsTrim comment
  if looksLikeVerse text then
    let res := allowedToEnqueue userId now st
    if res.1 then (some (clampRange (normalizeInline text)), res.2)
    else (none, res.2)
  else (none, st)

/-! ## Manual injection (src/server.js lines 42-53, src/unnamed/part_001 lines 28-35)

```js
app.post('/inject', (req, res) => {
  const auth = req.headers.authorization || '';
  if (!ADMIN_TOKEN || auth !== `Bearer ${ADMIN_TOKEN}`) {
    return res.status(401).json({ error: 'unauthorized' });
  }
  const { ref, text, audioUrl, user } = req.body || {};
  if (!ref) return res.status(400).json({ error: 'missing ref' });
  broadcast({ type: 'read', ref, text, audioUrl, user: user || 'admin' });
  res.json({ ok: true });
});
```
`ADMIN_TOKEN` is `(process.env.ADMIN_TOKEN || '').trim()`: an unset variable
and an empty/blank one both give the empty string. -/

/-- A `{ type: 'read', ... }` broadcast message. -/
structure ReadMsg where
  ref : JSStr
  text : Option JSStr
  audioUrl : Option JSStr
  user : JSStr
deriving DecidableEq

/-- JS `x || d` for an optional string: `undefined` and `''` are falsy. -/
def jsOrStr (o : Option JSStr) (d : JSStr) : JSStr :=
  match o with
  | none => d
  | some s => if s = [] then d else s

inductive InjectResult where
  | unauthorized
  | missingRef
  | broadcasted (msg : ReadMsg)
deriving DecidableEq

/-- The `/inject` handler.  `authHeader = none` models an absent Authorization
header (`req.headers.authorization || ''`); `ref = none` an absent body field. -/
def injectHandle (adminToken : JSStr) (authHeader : Option JSStr)
    (ref text audioUrl user : Option JSStr) : InjectResult :=
  let auth := authHeader.getD []
  if adminToken = [] ∨ auth ≠ codes "Bearer " ++ adminToken then .unauthorized
  else
    match ref with
    | none => .missingRef
    | some r =>
      if r = [] then .missingRef
      else .broadcasted ⟨r, text, audioUrl, jsOrStr user (codes "admin")⟩

/-! ## Client canonicalization (src/unnamed/part_000 lines 24-25)

```js
const titleCase = (s) => s.replace(/\b([a-z])([a-z]*)/gi, (_,a,b)=>a.toUpperCase()+b.toLowerCase());
function normalizeRef(raw){ const s = String(raw||'').trim().toLowerCase().replace(/\s+/g,' '); return titleCase(s); }
```

The global replace scans left to right.  A match starts at a `\b` before a
letter; the greedy `([a-z]*)` then absorbs the whole letter run (letters are
word characters, so there is no boundary inside a run and no match can start
inside one).  `tcGo`'s state records whether we are outside a match (and
whether the previous unit was a word character, which decides `\b`) or inside
the tail of a match being lower-cased. -/

inductive TcSt where
  | out (prevWord : Bool)
  | run

/-- The scan of `s.replace(/\b([a-z])([a-z]*)/gi, (_,a,b) => a.toUpperCase()+b.toLowerCase())`. -/
def tcGo : TcSt → JSStr → JSStr
  | _, [] => []
  | .out b, c :: rest =>
    if isLetterU c && !b then toUpperU c :: tcGo .run rest
    else c :: tcGo (.out (isWordU c)) rest
  | .run, c :: rest =>
    if isLetterU c then toLowerU c :: tcGo .run rest
    else c :: tcGo (.out (isWordU c)) rest

/-- `titleCase` (at the string start, `\b` holds before any word character). -/
def titleCase (l : JSStr) : JSStr := tcGo (.out false) l

/-- `normalizeRef`: trim, lower-case, collapse whitespace, title-case. -/
def normalizeRef (l : JSStr) : JSStr := titleCase (collapseWs (lowerStr (jsTrim l)))

/-! ### Spec-side canonicalizer (for claim C7)

The spec says `canonicalize` "title-cases each whitespace-delimited word
(first letter upper, rest lower)".  That wording upper-cases only the first
unit of each whitespace-delimited chunk and lower-cases everything else in
the chunk; `specTitleGo` is that wording, to be compared with `titleCase`. -/

def specTitleGo : Bool → JSStr → JSStr
  | _, [] => []
  | atStart, c :: rest =>
    if isWsU c then c :: specTitleGo true rest
    else (if atStart then toUpperU c else toLowerU c) :: specTitleGo false rest

/-- The spec's wording of `canonicalize`: trim, lower-case, collapse, then
title-case each whitespace-delimited word, first unit upper and rest lower. -/
def specCanonicalize (l : JSStr) : JSStr := specTitleGo true (collapseWs (lowerStr (jsTrim l)))

/-! ## Content resolver (src/unnamed/part_000 lines 27-35 and 52)

```js
async function fetchVerseText(ref){
  const r = await fetch(url);
  if(!r.ok) throw new Error('Verse not found');
  const j = await r.json();
  if(j.text) return j.text.trim().replace(/\s+/g,' ');
  if(Array.isArray(j.verses)) return j.verses.map(v=>v.text.trim()).join(' ').replace(/\s+/g,' ');
  throw new Error('Unexpected API response');
}
// in playLoop:
if(!item.text){ try{ item.text = await fetchVerseText(item.ref); } catch{ item.text = item.ref; } }
```
The external lookup is an oracle: either the fetch itself rejects
(`netError`), or it yields a response with a status (`r.ok` is
`200 <= status <= 299`) and an optional `text` field and optional `verses`
array. -/

inductive FetchOutcome where
  | netError
  | response (status : Nat) (text : Option JSStr) (verses : Option (List JSStr))

/-- `Array.isArray(j.verses)` branch: trim each segment, join with single
spaces, collapse whitespace. -/
def extractVerses (jverses : Option (List JSStr)) : Except Unit JSStr :=
  match jverses with
  | some vs => .ok (collapseWs (List.intercalate [32] (vs.map jsTrim)))
  | none => .error ()

/-- The body of `fetchVerseText` after a response arrived (`if(j.text)` is a
truthiness test, so an empty `text` falls through to the `verses` branch). -/
def extractText (jtext : Option JSStr) (jverses : Option (List JSStr)) : Except Unit JSStr :=
  match jtext with
  | some t => if t = [] then extractVerses jverses else .ok (collapseWs (jsTrim t))
  | none => extractVerses jverses

/-- `fetchVerseText` as a function of the oracle's outcome: `.error ()` is a
thrown exception. -/
def fetchVerseText (o : FetchOutcome) : Except Unit JSStr :=
  match o with
  | .netError => .error ()
  | .response status jtext jverses =>
    if 200 ≤ status ∧ status ≤ 299 then extractText jtext jverses
    else .error ()

/-- The resolution step of `playLoop` for an item without pre-supplied text:
any exception is caught and the raw reference is used as the text. -/
def resolveText (ref : JSStr) (o : FetchOutcome) : JSStr :=
  match fetchVerseText o with
  | .ok t => t
  | .error _ => ref

/-! ## Supplied-audio playback branch (src/unnamed/part_000 lines 68-73)

```js
if(item.audioUrl){
  elAudio.src = item.audioUrl;
  try { await elAudio.play(); } catch {}
  await new Promise(res => { elAudio.onended = () => res(); });
  return;
}
```
The platform is an oracle `AudioEnv`: whether `play()` resolves, and whether
the element ever fires `ended`.  (When `play()` rejects, playback never starts
and `ended` never fires.)  The branch completes (`some ()`) iff the `ended`
promise resolves; a rejected `play()` is swallowed by the empty `catch` and
has no effect on control flow — which is why the claimed
"complete immediately on start failure" does not happen. -/

structure AudioEnv where
  playStartSucceeds : Bool
  endedFires : Bool

/-- `some ()` iff the supplied-audio branch of `playItem` terminates in the
given environment. -/
def playSuppliedAudio (env : AudioEnv) : Option Unit :=
  let _ := env.playStartSucceeds
  if env.endedFires then some () else none

/-! ## Playback queue / playing flag (src/unnamed/part_000 lines 40-59)

```js
function enqueue(ref, opts={}){
  const norm = normalizeRef(ref);
  q.push({ ref: norm, text: opts.text, audioUrl: opts.audioUrl, user: opts.user });
  updatePreview();
  if(!playing) playLoop();
}
async function playLoop(){
  playing = true;
  while(q.length){
    const item = q.shift();
    try{ ...resolve...; await playItem(item); await sleep(1000); }catch(_){}
    updatePreview();
  }
  playing = false;
}
```

JS is single threaded and run-to-completion: code between two `await`s is
atomic.  `enqueue` is synchronous, and when it calls `playLoop()` the loop
body runs synchronously through `playing = true`, the `while` test and the
`shift()` until the first `await` inside the body.  Likewise, when an `await`
inside the body resumes, the loop runs synchronously through `updatePreview`,
the next `while` test and either the next `shift()` or `playing = false` and
return.  The transition system below has exactly these atomic blocks:
`enqueueStep` (a `read` message / manual call), `loopResumeStep` (an in-flight
loop body finishing its awaits), `clearStep` (a `clear` message).  `loops`
counts the live activations of `playLoop` so that "two loops draining
concurrently" is representable and can be refuted. -/

structure QItem where
  ref : JSStr
  text : Option JSStr
  audioUrl : Option JSStr
  user : Option JSStr
deriving DecidableEq

structure PlayerSt where
  q : List QItem
  playing : Bool
  loops : Nat
deriving DecidableEq

def initPlayer : PlayerSt := ⟨[], false, 0⟩

/-- `enqueue(ref, opts)`: push the normalized item; if `playing` is false,
call `playLoop()`, which synchronously sets `playing = true`, passes the
`while` test (the queue was just pushed to) and shifts the head before its
first `await`. -/
def enqueueStep (raw : JSStr) (text audioUrl user : Option JSStr) (s : PlayerSt) : PlayerSt :=
  let item : QItem := ⟨normalizeRef raw, text, audioUrl, user⟩
  let q1 := s.q ++ [item]
  if s.playing then ⟨q1, s.playing, s.loops⟩
  else
    match q1 with
    | [] => ⟨[], false, s.loops⟩
    | _ :: t => ⟨t, true, s.loops + 1⟩

/-- A live loop activation finishes the awaits of one body iteration and runs
the next atomic block: if the queue is empty it sets `playing = false` and
returns (one activation gone); otherwise it shifts the next item and awaits
again. -/
def loopResumeStep (s : PlayerSt) : PlayerSt :=
  match s.q with
  | [] => ⟨[], false, s.loops - 1⟩
  | _ :: t => ⟨t, s.playing, s.loops⟩

/-- A `{ type: 'clear' }` message: `q.length = 0`. -/
def clearStep (s : PlayerSt) : PlayerSt := ⟨[], s.playing, s.loops⟩

/-- The states a consumer can actually be in: every interleaving of enqueues
(chat/bulk/manual messages), loop-body resumptions and clears, from startup. -/
inductive PlayerReach : PlayerSt → Prop where
  | init : PlayerReach initPlayer
  | enq (raw : JSStr) (text audioUrl user : Option JSStr) {s : PlayerSt} :
      PlayerReach s → PlayerReach (enqueueStep raw text audioUrl user s)
  | resume {s : PlayerSt} : PlayerReach s → 1 ≤ s.loops → PlayerReach (loopResumeStep s)
  | clear {s : PlayerSt} : PlayerReach s → PlayerReach (clearStep s)

/-! ### Derived string predicates (used to state normalization lemmas) -/

/-- Every unit is fixed by lower-casing (an all-lower-case string). -/
def lowerFixed (l : JSStr) : Prop := ∀ c ∈ l, toLowerU c = c

/-- The string does not start with whitespace. -/
def noLeadWs (l : JSStr) : Prop := ∀ c, l.head? = some c → isWsU c = false

/-- The string does not end with whitespace. -/
def noTrailWs (l : JSStr) : Prop := ∀ c, l.getLast? = some c → isWsU c = false

/-! # Theorems -/

/-- C2: on any rejection the state is returned untouched; on success both
`lastGlobal` and the user's entry are set to `now` and no other entry moves. -/
theorem allowedToEnqueue_state_discipline (u : JSStr) (now : Int) (st : AdmState) :
    ((allowedToEnqueue u now st).1 = false → (allowedToEnqueue u now st).2 = st) ∧
    ((allowedToEnqueue u now st).1 = true →
      (allowedToEnqueue u now st).2.lastGlobal = now ∧
      (allowedToEnqueue u now st).2.recentUsers u = some now ∧
      ∀ v, v ≠ u → (allowedToEnqueue u now st).2.recentUsers v = st.recentUsers v) := by
  by_cases h1 : now - st.lastGlobal < GLOBAL_MIN_INTERVAL_MS
  · have hres : allowedToEnqueue u now st = (false, st) := by
      unfold allowedToEnqueue; rw [if_pos h1]
    rw [hres]; exact ⟨fun _ => rfl, fun h => by simp at h⟩
  · by_cases h2 : now - (st.recentUsers u).getD 0 < USER_COOLDOWN_MS
    · have hres : allowedToEnqueue u now st = (false, st) := by
        unfold allowedToEnqueue; simp only [if_neg h1, if_pos h2]
      rw [hres]; exact ⟨fun _ => rfl, fun h => by simp at h⟩
    · have hres : allowedToEnqueue u now st
          = (true, ⟨now, fun v => if v = u then some now else st.recentUsers v⟩) := by
        unfold allowedToEnqueue; simp only [if_neg h1, if_neg h2]
      rw [hres]
      exact ⟨fun h => by simp at h,
        fun _ => ⟨rfl, by simp, fun v hv => by simp [hv]⟩⟩

/-- Witness for C2: a concrete global-throttle rejection leaves the initial
state unchanged. -/
theorem allowedToEnqueue_state_discipline_witness :
    (allowedToEnqueue (codes "alice") 5 initAdmState).2 = initAdmState :=
  (allowedToEnqueue_state_discipline (codes "alice") 5 initAdmState).1 (by decide)

/-- C5: the throttle scenarios.  `T` is the (absolute, `Date.now()`-style)
time of the first event; `Date.now()` is at least `75000` at any realistic
moment (that bound was passed 75 seconds into 1970), which is the hypothesis
`hT`/`hnow` under which "unseen users are admit-eligible" holds despite the
`|| 0` epoch default. -/
theorem admission_throttling_scenarios (T : Int) (u1 u2 : JSStr)
    (st : AdmState) (u : JSStr) (now : Int)
    (hT : 75000 ≤ T) (hne : u1 ≠ u2)
    (hu : st.recentUsers u = none) (hnow : 75000 ≤ now)
    (hg : ¬ now - st.lastGlobal < 12000) :
    (allowedToEnqueue u1 T initAdmState).1 = true ∧
    (allowedToEnqueue u2 (T + 1000) (allowedToEnqueue u1 T initAdmState).2).1 = false ∧
    (allowedToEnqueue u2 (T + 13000) (allowedToEnqueue u1 T initAdmState).2).1 = true ∧
    (allowedToEnqueue u1 (T + 70000) (allowedToEnqueue u1 T initAdmState).2).1 = false ∧
    (allowedToEnqueue u1 (T + 76000) (allowedToEnqueue u1 T initAdmState).2).1 = true ∧
    (allowedToEnqueue u now st).1 = true := by
  have hst1 : (allowedToEnqueue u1 T initAdmState).2
      = ⟨T, fun v => if v = u1 then some T else none⟩ := by
    unfold allowedToEnqueue initAdmState
    rw [if_neg (by simp [GLOBAL_MIN_INTERVAL_MS]; try omega),
      if_neg (by simp [USER_COOLDOWN_MS]; try omega)]
  have hne' : ¬ u2 = u1 := fun h => hne h.symm
  refine ⟨?_, ?_, ?_, ?_, ?_, ?_⟩
  · unfold allowedToEnqueue initAdmState
    rw [if_neg (by simp [GLOBAL_MIN_INTERVAL_MS]; try omega),
      if_neg (by simp [USER_COOLDOWN_MS]; try omega)]
  · rw [hst1]; unfold allowedToEnqueue
    rw [if_pos (by simp [GLOBAL_MIN_INTERVAL_MS]; try omega)]
  · rw [hst1]; unfold allowedToEnqueue
    rw [if_neg (by simp [GLOBAL_MIN_INTERVAL_MS]; try omega),
      if_neg (by simp [USER_COOLDOWN_MS, hne']; try omega)]
  · rw [hst1]; unfold allowedToEnqueue
    rw [if_neg (by simp [GLOBAL_MIN_INTERVAL_MS]; try omega),
      if_pos (by simp [USER_COOLDOWN_MS]; try omega)]
  · rw [hst1]; unfold allowedToEnqueue
    rw [if_neg (by simp [GLOBAL_MIN_INTERVAL_MS]; try omega),
      if_neg (by simp [USER_COOLDOWN_MS]; try omega)]
  · unfold allowedToEnqueue
    rw [if_neg (by simpa [GLOBAL_MIN_INTERVAL_MS] using hg),
      if_neg (by simp [USER_COOLDOWN_MS, hu]; try omega)]

/-- Witness for C5 at concrete inputs: first event at `T = 75000` from "alice",
second from "bob"; the unseen user "carol" is checked against a fresh state at
time `100000`. -/
theorem admission_throttling_scenarios_witness :
    (allowedToEnqueue (codes "alice") 75000 initAdmState).1 = true ∧
    (allowedToEnqueue (codes "bob") 76000
      (allowedToEnqueue (codes "alice") 75000 initAdmState).2).1 = false ∧
    (allowedToEnqueue (codes "bob") 88000
      (allowedToEnqueue (codes "alice") 75000 initAdmState).2).1 = true ∧
    (allowedToEnqueue (codes "alice") 145000
      (allowedToEnqueue (codes "alice") 75000 initAdmState).2).1 = false ∧
    (allowedToEnqueue (codes "alice") 151000
      (allowedToEnqueue (codes "alice") 75000 initAdmState).2).1 = true ∧
    (allowedToEnqueue (codes "carol") 100000 initAdmState).1 = true :=
  admission_throttling_scenarios 75000 (codes "alice") (codes "bob")
    initAdmState (codes "carol") 100000
    (by decide) (by decide) rfl (by decide) (by decide)

/-- C10: the injection endpoint fails closed.  A broadcast happens only when a
non-empty admin credential is configured and the Authorization header is
exactly `Bearer <credential>`; with an empty/unset credential every request is
rejected as unauthorized (`!ADMIN_TOKEN` short-circuits before the comparison,
so even the header `Bearer ` cannot match an empty credential). -/
theorem inject_fails_closed (tok : JSStr) (authHeader : Option JSStr)
    (ref text audioUrl user : Option JSStr) (m : ReadMsg) :
    (injectHandle tok authHeader ref text audioUrl user = .broadcasted m →
      tok ≠ [] ∧ authHeader = some (codes "Bearer " ++ tok)) ∧
    (tok = [] → injectHandle tok authHeader ref text audioUrl user = .unauthorized) := by
  constructor
  · intro h
    by_cases hempty : tok = []
    · rw [show injectHandle tok authHeader ref text audioUrl user = .unauthorized from by
        unfold injectHandle; rw [if_pos (Or.inl hempty)]] at h
      exact absurd h (by simp)
    · by_cases hauth : authHeader.getD [] = codes "Bearer " ++ tok
      · refine ⟨hempty, ?_⟩
        cases authHeader with
        | none =>
          exfalso
          have : ([] : JSStr) = codes "Bearer " ++ tok := hauth
          have hlen := congrArg List.length this
          simp [codes] at hlen
        | some a => simpa using congrArg some hauth
      · rw [show injectHandle tok authHeader ref text audioUrl user = .unauthorized from by
          unfold injectHandle; rw [if_pos (Or.inr hauth)]] at h
        exact absurd h (by simp)
  · intro hempty
    unfold injectHandle; rw [if_pos (Or.inl hempty)]

/-- Witness for C10: with an empty credential, a request that presents the
header `Bearer ` (and a valid ref) is still rejected as unauthorized. -/
theorem inject_fails_closed_witness :
    injectHandle [] (some (codes "Bearer ")) (some (codes "John 3:16"))
      none none none = .unauthorized :=
  (inject_fails_closed [] (some (codes "Bearer ")) (some (codes "John 3:16"))
    none none none ⟨[], none, none, []⟩).2 rfl

/-- C9: on any lookup failure — a network error, a non-success status (such as
500), or a response carrying neither a usable `text` field nor a `verses`
array — the resolver falls back to the raw reference; concretely, a 500 for
"Psalm 23:1" presents "Psalm 23:1".  `resolveText` is total, so no error
reaches the caller. -/
theorem resolve_falls_back_to_reference (ref : JSStr) (st : Nat)
    (jtext : Option JSStr) (jverses : Option (List JSStr))
    (hst : ¬ (200 ≤ st ∧ st ≤ 299)) :
    resolveText ref .netError = ref ∧
    resolveText ref (.response st jtext jverses) = ref ∧
    (∀ st2 : Nat, resolveText ref (.response st2 none none) = ref) ∧
    resolveText ref (.response 500 (some (codes "Internal Server Error")) none)
      = ref ∧
    resolveText (codes "Psalm 23:1") (.response 500 none none) = codes "Psalm 23:1" := by
  refine ⟨rfl, ?_, ?_, ?_, by decide⟩
  · simp only [resolveText, fetchVerseText]
    rw [if_neg hst]
  · intro st2
    simp only [resolveText, fetchVerseText]
    by_cases h : 200 ≤ st2 ∧ st2 ≤ 299
    · rw [if_pos h]; rfl
    · rw [if_neg h]
  · simp only [resolveText, fetchVerseText]
    rw [if_neg (by omega)]

/-- Witness for C9: the concrete 500 case. -/
theorem resolve_falls_back_to_reference_witness :
    resolveText (codes "Psalm 23:1") (.response 500 none none) = codes "Psalm 23:1" :=
  (resolve_falls_back_to_reference (codes "Psalm 23:1") 500 none none
    (by omega)).2.2.2.2

/-- C3 (the code, at the claim's failing input): in the supplied-audio branch
a `play()` rejection is swallowed, but the branch still awaits the `ended`
event; a clip whose playback never started never ends, so the branch does not
complete — the item is NOT treated as complete immediately, and the loop does
not proceed.  Completion of the branch depends only on the `ended` event, not
on whether `play()` succeeded. -/
theorem playItem_audio_hangs_on_start_failure :
    playSuppliedAudio ⟨false, false⟩ = none ∧
    (∀ p e, playSuppliedAudio ⟨p, e⟩ = playSuppliedAudio ⟨true, e⟩) := by
  exact ⟨rfl, fun p e => rfl⟩

/-- C8: in every reachable consumer state, `playing` is true exactly while a
(single) `playLoop` activation is live, at most one activation ever runs
(`loops ≤ 1`, no double start), and whenever no activation runs the queue is
empty (no stranded item).  `enqueue` starting the loop exactly when `playing`
is false and the loop clearing `playing` exactly on an empty queue are the
`enqueueStep`/`loopResumeStep` transitions themselves. -/
theorem playing_flag_coordination (s : PlayerSt) (h : PlayerReach s) :
    (s.playing = true ↔ s.loops = 1) ∧ s.loops ≤ 1 ∧ (s.loops = 0 → s.q = []) := by
  induction h with
  | init => simp [initPlayer]
  | @enq raw text audioUrl user t ht ih =>
    obtain ⟨ih1, ih2, ih3⟩ := ih
    unfold enqueueStep
    by_cases hp : t.playing
    · have hl : t.loops = 1 := ih1.mp hp
      simp only [hp, if_true]
      constructor
      · simp [hl, hp]
      · simp [hl]
    · have hl : t.loops = 0 := by
        rcases Nat.lt_or_ge t.loops 1 with h1 | h1
        · omega
        · exact absurd (ih1.mpr (by omega)) hp
      have hq : t.q = [] := ih3 hl
      simp only [hp, if_false, hq, hl]
      simp
  | @resume t ht hl ih =>
    obtain ⟨ih1, ih2, ih3⟩ := ih
    have hl1 : t.loops = 1 := by omega
    have hp : t.playing = true := ih1.mpr hl1
    unfold loopResumeStep
    cases hq : t.q with
    | nil => simp [hl1]
    | cons a l => simp [hp, hl1]
  | @clear t ht ih =>
    obtain ⟨ih1, ih2, ih3⟩ := ih
    unfold clearStep
    exact ⟨ih1, ih2, fun _ => rfl⟩

/-- Witness for C8: the state reached by a single enqueue from startup. -/
theorem playing_flag_coordination_witness :
    ((enqueueStep (codes "John 3:16") none none none initPlayer).playing = true ↔
      (enqueueStep (codes "John 3:16") none none none initPlayer).loops = 1) ∧
    (enqueueStep (codes "John 3:16") none none none initPlayer).loops ≤ 1 ∧
    ((enqueueStep (codes "John 3:16") none none none initPlayer).loops = 0 →
      (enqueueStep (codes "John 3:16") none none none initPlayer).q = []) :=
  playing_flag_coordination _ (PlayerReach.enq _ _ _ _ PlayerReach.init)

/-! ### Lemmas about `clampRange`'s regex -/

/-- If every unit of `a` satisfies `p` and the head of `r` does not, the
`takeWhile`/`dropWhile` split of `a ++ r` is exactly `(a, r)`. -/
theorem takeWhile_dropWhile_split (p : Nat → Bool) :
    ∀ (a r : JSStr), (∀ c ∈ a, p c = true) → (∀ x, r.head? = some x → p x = false) →
      (a ++ r).takeWhile p = a ∧ (a ++ r).dropWhile p = r := by
  intro a
  induction a with
  | nil =>
    intro r _ hr
    cases r with
    | nil => exact ⟨rfl, rfl⟩
    | cons x r' =>
      have hx : p x = false := hr x rfl
      simp [List.takeWhile_cons, List.dropWhile_cons, hx]
  | cons c a' ih =>
    intro r ha hr
    have hc : p c = true := ha c (by simp)
    have := ih r (fun d hd => ha d (by simp [hd])) hr
    simp [List.takeWhile_cons, List.dropWhile_cons, hc, this.1, this.2]

/-- Soundness of `matchDashDigits`: a successful match decomposes the input as
non-empty digits, `-`, non-empty digits. -/
theorem matchDashDigits_sound (l a b : JSStr) (h : matchDashDigits l = some (a, b)) :
    l = a ++ 45 :: b ∧ a ≠ [] ∧ a.all isDigitU = true ∧ b ≠ [] ∧ b.all isDigitU = true := by
  unfold matchDashDigits at h
  by_cases he : l.takeWhile isDigitU = []
  · rw [if_pos he] at h; exact absurd h (by simp)
  · rw [if_neg he] at h
    rcases hd : l.dropWhile isDigitU with _ | ⟨c, r⟩
    · rw [hd] at h; exact absurd h (by simp)
    · rw [hd] at h
      simp only at h
      by_cases hc : c = 45 ∧ r ≠ [] ∧ r.all isDigitU
      · rw [if_pos hc] at h
        obtain ⟨hc45, hr1, hr2⟩ := hc
        have hab : l.takeWhile isDigitU = a ∧ r = b := by
          constructor
          · exact congrArg Prod.fst (Option.some.inj h)
          · exact congrArg Prod.snd (Option.some.inj h)
        obtain ⟨ha, hb⟩ := hab
        subst hc45
        refine ⟨?_, ?_, ?_, ?_, ?_⟩
        · rw [← ha, ← hb, ← hd, List.takeWhile_append_dropWhile]
        · rw [← ha]; exact he
        · rw [← ha]
          exact List.all_eq_true.mpr fun c hc => List.mem_takeWhile_imp hc
        · rw [← hb]; exact hr1
        · rw [← hb]; exact hr2
      · rw [if_neg hc] at h; exact absurd h (by simp)

/-- A string matched by `(\d+)-(\d+)$` contains no colon. -/
theorem matchDashDigits_no_colon (l a b : JSStr) (h : matchDashDigits l = some (a, b)) :
    ¬ 58 ∈ l := by
  obtain ⟨heq, _, ha, _, hb⟩ := matchDashDigits_sound l a b h
  subst heq
  intro hmem
  rcases List.mem_append.mp hmem with hm | hm
  · have := List.all_eq_true.mp ha 58 hm
    simp [isDigitU] at this
  · rcases List.mem_cons.mp hm with hm | hm
    · simp at hm
    · have := List.all_eq_true.mp hb 58 hm
      simp [isDigitU] at this

/-- Completeness of `matchDashDigits` on a well-shaped input. -/
theorem matchDashDigits_complete (a b : JSStr)
    (ha : a ≠ []) (ha2 : a.all isDigitU = true)
    (hb : b ≠ []) (hb2 : b.all isDigitU = true) :
    matchDashDigits (a ++ 45 :: b) = some (a, b) := by
  have hsplit := takeWhile_dropWhile_split isDigitU a (45 :: b)
    (fun c hc => List.all_eq_true.mp ha2 c hc)
    (fun x hx => by
      have hx45 : x = 45 := by
        have := hx
        simp at this
        omega
      subst hx45; decide)
  unfold matchDashDigits
  rw [hsplit.1, hsplit.2, if_neg (by simpa using ha)]
  simp [hb, hb2]


/-- Soundness of `findColonSplit`: a successful match splits the input into a
group of dot-matchable units followed by the matching colon, then non-empty
digits, `-`, non-empty digits. -/
theorem findColonSplit_sound :
    ∀ (l p a b : JSStr), findColonSplit l = some (p, a, b) →
      l = p ++ a ++ 45 :: b ∧
      (∃ q, p = q ++ [58] ∧ ∀ c ∈ q, isDotU c = true) ∧
      a ≠ [] ∧ a.all isDigitU = true ∧ b ≠ [] ∧ b.all isDigitU = true := by
  intro l
  induction l with
  | nil => intro p a b h; exact absurd h (by simp [findColonSplit])
  | cons c rest ih =>
    intro p a b h
    unfold findColonSplit at h
    by_cases hc : c = 58
    · rw [if_pos hc] at h
      rcases hm : matchDashDigits rest with _ | ⟨a', b'⟩
      · rw [hm] at h
        rcases hf : findColonSplit rest with _ | ⟨⟨p', a'', b''⟩⟩
        · rw [hf] at h; exact absurd h (by simp)
        · rw [hf] at h
          simp only at h
          have h1 := Option.some.inj h
          have hp : 58 :: p' = p := congrArg (fun x => x.1) h1
          have ha : a'' = a := congrArg (fun x => x.2.1) h1
          have hb : b'' = b := congrArg (fun x => x.2.2) h1
          obtain ⟨heq, ⟨q, hq1, hq2⟩, hrest⟩ := ih p' a'' b'' hf
          subst hc; subst ha; subst hb
          refine ⟨?_, ⟨58 :: q, ?_, ?_⟩, hrest⟩
          · rw [← hp, heq]; rfl
          · rw [← hp, hq1]; rfl
          · intro d hd
            rcases List.mem_cons.mp hd with hd | hd
            · subst hd; decide
            · exact hq2 d hd
      · rw [hm] at h
        simp only at h
        have h1 := Option.some.inj h
        have hp : ([58] : JSStr) = p := congrArg (fun x => x.1) h1
        have ha : a' = a := congrArg (fun x => x.2.1) h1
        have hb : b' = b := congrArg (fun x => x.2.2) h1
        obtain ⟨heq, hrest⟩ := matchDashDigits_sound rest a' b' hm
        subst hc; subst ha; subst hb
        refine ⟨?_, ⟨[], by rw [← hp]; rfl, by simp⟩, hrest⟩
        rw [← hp, heq]; rfl
    · rw [if_neg hc] at h
      by_cases hdot : isDotU c = true
      · rw [if_pos hdot] at h
        rcases hf : findColonSplit rest with _ | ⟨⟨p', a'', b''⟩⟩
        · rw [hf] at h; exact absurd h (by simp)
        · rw [hf] at h
          simp only at h
          have h1 := Option.some.inj h
          have hp : c :: p' = p := congrArg (fun x => x.1) h1
          have ha : a'' = a := congrArg (fun x => x.2.1) h1
          have hb : b'' = b := congrArg (fun x => x.2.2) h1
          obtain ⟨heq, ⟨q, hq1, hq2⟩, hrest⟩ := ih p' a'' b'' hf
          subst ha; subst hb
          refine ⟨?_, ⟨c :: q, ?_, ?_⟩, hrest⟩
          · rw [← hp, heq]; rfl
          · rw [← hp, hq1]; rfl
          · intro d hd
            rcases List.mem_cons.mp hd with hd | hd
            · subst hd; exact hdot
            · exact hq2 d hd
      · rw [if_neg hdot] at h; exact absurd h (by simp)

/-- Completeness of `findColonSplit`: on `q ++ ':' ++ digits ++ '-' ++ digits`
with a dot-matchable `q` the lazy scan finds exactly this split — a colon
inside `q` cannot match because its remainder still contains this colon, and a
string matched by the trailing `(\d+)-(\d+)$` contains no colon. -/
theorem findColonSplit_complete :
    ∀ (q a b : JSStr), (∀ c ∈ q, isDotU c = true) →
      a ≠ [] → a.all isDigitU = true → b ≠ [] → b.all isDigitU = true →
      findColonSplit (q ++ 58 :: a ++ 45 :: b) = some (q ++ [58], a, b) := by
  intro q
  induction q with
  | nil =>
    intro a b _ ha ha2 hb hb2
    show findColonSplit (58 :: (a ++ 45 :: b)) = _
    unfold findColonSplit
    rw [if_pos rfl, matchDashDigits_complete a b ha ha2 hb hb2]
    rfl
  | cons c q' ih =>
    intro a b hq ha ha2 hb hb2
    have hrec := ih a b (fun d hd => hq d (by simp [hd])) ha ha2 hb hb2
    show findColonSplit (c :: (q' ++ 58 :: a ++ 45 :: b)) = _
    unfold findColonSplit
    by_cases hc : c = 58
    · rw [if_pos hc]
      have hnm : matchDashDigits (q' ++ 58 :: a ++ 45 :: b) = none := by
        rcases hm : matchDashDigits (q' ++ 58 :: a ++ 45 :: b) with _ | ⟨a', b'⟩
        · rfl
        · exact absurd (by simp) (matchDashDigits_no_colon _ a' b' hm)
      rw [hnm, hrec]
      subst hc; rfl
    · rw [if_neg hc, if_pos (hq c (by simp)), hrec]
      rfl

/-- A string with no colon cannot have the `<anything>:<digits>-<digits>` shape. -/
theorem no_colon_no_range_shape (ref : JSStr) (h : ¬ 58 ∈ ref) :
    ¬ ∃ q2 a2 b2 : JSStr, ref = q2 ++ 58 :: a2 ++ 45 :: b2 ∧
      a2 ≠ [] ∧ a2.all isDigitU = true ∧ b2 ≠ [] ∧ b2.all isDigitU = true := by
  rintro ⟨q2, a2, b2, heq, -⟩
  exact h (heq ▸ by simp)

/-- Rounding is the identity on exactly representable integers (below `2^53`). -/
theorem roundDouble_small (v : Nat) (h : v < 2 ^ 53) : roundDouble v = v := by
  unfold roundDouble; rw [if_pos h]

/-- Parsing a digit string below `2^53` is exact. -/
theorem jsNumVal_small (l : JSStr) (h : digitsVal l < 2 ^ 53) : jsNumVal l = digitsVal l :=
  roundDouble_small _ h

/-- IEEE subtraction of exactly representable integers is exact. -/
theorem subDouble_small (x y : Nat) (hx : x < 2 ^ 53) (hy : y < 2 ^ 53) :
    subDouble x y = (x : Int) - y := by
  have habs : ((x : Int) - y).natAbs < 2 ^ 53 := by omega
  show (if ((x : Int) - y) < 0 then -(roundDouble ((x : Int) - y).natAbs : Int)
      else (roundDouble ((x : Int) - y).natAbs : Int)) = (x : Int) - y
  split
  · rw [roundDouble_small _ habs]; omega
  · rw [roundDouble_small _ habs]; omega

/-- A value at or above `2^1025` rounds to at least `2^1024`: the parsed
double is `Infinity` (`Number.isFinite` is false). -/
theorem roundDouble_big (v : Nat) (h : 2 ^ 1025 ≤ v) : 2 ^ 1024 ≤ roundDouble v := by
  have h53 : ¬ v < 2 ^ 53 := by
    have : (2:Nat) ^ 53 ≤ 2 ^ 1025 := Nat.pow_le_pow_right (by norm_num) (by norm_num)
    omega
  have hv0 : v ≠ 0 := by
    have : (0:Nat) < 2 ^ 1025 := Nat.pos_pow_of_pos _ (by norm_num)
    omega
  have hk : 1025 ≤ Nat.log2 v := (Nat.le_log2 hv0).mpr h
  have hkle : 2 ^ Nat.log2 v ≤ v := Nat.log2_self_le hv0
  have hq : 2 ^ 52 ≤ v / 2 ^ (Nat.log2 v - 52) := by
    rw [Nat.le_div_iff_mul_le (Nat.pos_pow_of_pos _ (by norm_num))]
    calc 2 ^ 52 * 2 ^ (Nat.log2 v - 52) = 2 ^ (52 + (Nat.log2 v - 52)) := by
          rw [Nat.pow_add]
    _ = 2 ^ Nat.log2 v := by congr 1; omega
    _ ≤ v := hkle
  have key : ∀ q2 : Nat, v / 2 ^ (Nat.log2 v - 52) ≤ q2 →
      2 ^ 1024 ≤ q2 * 2 ^ (Nat.log2 v - 52) := by
    intro q2 hge
    calc (2:Nat) ^ 1024 ≤ 2 ^ (52 + (Nat.log2 v - 52)) :=
          Nat.pow_le_pow_right (by norm_num) (by omega)
    _ = 2 ^ 52 * 2 ^ (Nat.log2 v - 52) := by rw [Nat.pow_add]
    _ ≤ (v / 2 ^ (Nat.log2 v - 52)) * 2 ^ (Nat.log2 v - 52) :=
          Nat.mul_le_mul_right _ hq
    _ ≤ q2 * 2 ^ (Nat.log2 v - 52) := Nat.mul_le_mul_right _ hge
  unfold roundDouble
  rw [if_neg h53]
  simp only []
  split
  · exact key _ (Nat.le_refl _)
  · split
    · exact key _ (by omega)
    · exact key _ (by omega)

/-- Value of a run of `n` nines (code unit 57): `10^n - 1`. -/
theorem digitsVal_replicate_nine (n : Nat) : digitsVal (List.replicate n 57) = 10 ^ n - 1 := by
  have aux : ∀ (m : Nat) (acc : Nat),
      List.foldl (fun acc c => acc * 10 + (c - 48)) acc (List.replicate m 57)
        = acc * 10 ^ m + (10 ^ m - 1) := by
    intro m
    induction m with
    | zero => intro acc; simp
    | succ j ih =>
      intro acc
      rw [List.replicate_succ, List.foldl_cons, ih, Nat.pow_succ]
      have hp : 1 ≤ (10:Nat) ^ j := Nat.one_le_pow _ _ (by norm_num)
      have hp10 : 1 ≤ (10:Nat) ^ j * 10 := by omega
      norm_num
      zify [hp, hp10]
      ring
  have := aux n 0
  unfold digitsVal
  omega

/-- C6 (amended): `clampRange("John 3:1-99") == "John 3:1-6"` and
`clampRange("John 3:16") == "John 3:16"`; an input with no
`<anything>:<digits>-<digits>` shape at all passes through unchanged with no
error; and on `<q>:<a>-<b>` (prefix `q` free of line terminators, as the
regex dot requires) with both numbers in the exactly-representable double
range (`A + 5` and `B` below `2^53`, where `Number.isFinite` holds, parsing,
subtraction, the `+ 5` and the printing are all exact), the end is rewritten
to `A-(A+5)` exactly when `B - A > MAX_RANGE_SPAN`, both numbers printed in
canonical decimal. -/
theorem clampRange_spec (ref q a b : JSStr)
    (hno : ¬ ∃ q2 a2 b2 : JSStr, ref = q2 ++ 58 :: a2 ++ 45 :: b2 ∧
      a2 ≠ [] ∧ a2.all isDigitU = true ∧ b2 ≠ [] ∧ b2.all isDigitU = true)
    (hq : ∀ c ∈ q, isDotU c = true)
    (ha : a ≠ []) (ha2 : a.all isDigitU = true)
    (hb : b ≠ []) (hb2 : b.all isDigitU = true)
    (hsa : digitsVal a + MAX_RANGE_SPAN < 2 ^ 53) (hsb : digitsVal b < 2 ^ 53) :
    clampRange (codes "John 3:1-99") = codes "John 3:1-6" ∧
    clampRange (codes "John 3:16") = codes "John 3:16" ∧
    clampRange ref = ref ∧
    clampRange (q ++ 58 :: a ++ 45 :: b) =
      (if (digitsVal b : Int) - (digitsVal a : Int) > (MAX_RANGE_SPAN : Int) then
        (q ++ [58]) ++ natCodes (digitsVal a) ++ 45 :: natCodes (digitsVal a + MAX_RANGE_SPAN)
      else q ++ 58 :: a ++ 45 :: b) := by
  refine ⟨by decide, by decide, ?_, ?_⟩
  · rcases hfc : findColonSplit ref with _ | ⟨⟨p, a2, b2⟩⟩
    · unfold clampRange; rw [hfc]
    · exfalso
      obtain ⟨heq, ⟨q2, hq2, _⟩, ha2', ha22, hb2', hb22⟩ :=
        findColonSplit_sound ref p a2 b2 hfc
      exact hno ⟨q2, a2, b2, by rw [heq, hq2]; simp, ha2', ha22, hb2', hb22⟩
  · unfold clampRange
    rw [findColonSplit_complete q a b hq ha ha2 hb hb2]
    have hA : jsNumVal a = digitsVal a := jsNumVal_small a (by unfold MAX_RANGE_SPAN at hsa; omega)
    have hB : jsNumVal b = digitsVal b := jsNumVal_small b hsb
    show (if jsNumVal a < 2 ^ 1024 ∧ jsNumVal b < 2 ^ 1024 ∧
          subDouble (jsNumVal b) (jsNumVal a) > (MAX_RANGE_SPAN : Int) then
        (q ++ [58]) ++ natCodes (jsNumVal a) ++
          45 :: natCodes (roundDouble (jsNumVal a + MAX_RANGE_SPAN))
      else q ++ 58 :: a ++ 45 :: b) = _
    rw [hA, hB, subDouble_small (digitsVal b) (digitsVal a) hsb
      (by unfold MAX_RANGE_SPAN at hsa; omega)]
    have hlt : (2:Nat) ^ 53 < 2 ^ 1024 := Nat.pow_lt_pow_right (by norm_num) (by norm_num)
    by_cases hcond : (digitsVal b : Int) - (digitsVal a : Int) > (MAX_RANGE_SPAN : Int)
    · rw [if_pos ⟨by unfold MAX_RANGE_SPAN at hsa; omega, by omega, hcond⟩, if_pos hcond,
        roundDouble_small _ hsa]
    · rw [if_neg (fun hc => hcond hc.2.2), if_neg hcond]

/-- Witness for C6: both examples, the pass-through on "nonsense", and the
general clamping shape at `"John 3" ++ ":" ++ "1" ++ "-" ++ "99"`. -/
theorem clampRange_spec_witness :
    clampRange (codes "John 3:1-99") = codes "John 3:1-6" ∧
    clampRange (codes "John 3:16") = codes "John 3:16" ∧
    clampRange (codes "nonsense") = codes "nonsense" ∧
    clampRange (codes "John 3" ++ 58 :: codes "1" ++ 45 :: codes "99") =
      (if (digitsVal (codes "99") : Int) - (digitsVal (codes "1") : Int) > (MAX_RANGE_SPAN : Int) then
        (codes "John 3" ++ [58]) ++ natCodes (digitsVal (codes "1")) ++
          45 :: natCodes (digitsVal (codes "1") + MAX_RANGE_SPAN)
      else codes "John 3" ++ 58 :: codes "1" ++ 45 :: codes "99") :=
  clampRange_spec (codes "nonsense") (codes "John 3") (codes "1") (codes "99")
    (no_colon_no_range_shape (codes "nonsense") (by decide))
    (by decide) (by decide) (by decide) (by decide) (by decide)
    (by decide) (by decide)

/-- C6 counterexample: the chat-reachable reference `"x:1-"` followed by 400
nines matches `<prefix>:<A>-<B>` with integers `A = 1`, `B = 10^400 - 1` and
`B - A > 5`, yet the code returns it unchanged: `+b` overflows to `Infinity`,
`Number.isFinite(B)` is false, and the guard short-circuits — the claimed
unconditional rewrite does not happen. -/
theorem clampRange_overflow_cex :
    (digitsVal (List.replicate 400 57) : Int) - (digitsVal (codes "1") : Int)
      > (MAX_RANGE_SPAN : Int) ∧
    clampRange (codes "x" ++ 58 :: codes "1" ++ 45 :: List.replicate 400 57)
      = codes "x" ++ 58 :: codes "1" ++ 45 :: List.replicate 400 57 ∧
    codes "x" ++ 58 :: codes "1" ++ 45 :: List.replicate 400 57 ≠ codes "x:1-6" := by
  have hval : digitsVal (List.replicate 400 57) = 10 ^ 400 - 1 :=
    digitsVal_replicate_nine 400
  have hbig : 2 ^ 1024 ≤ jsNumVal (List.replicate 400 57) := by
    unfold jsNumVal
    apply roundDouble_big
    rw [hval]
    norm_num
  refine ⟨?_, ?_, by decide⟩
  · rw [hval]
    unfold MAX_RANGE_SPAN
    have : (1:Nat) ≤ 10 ^ 400 := Nat.one_le_pow _ _ (by norm_num)
    have h6 : (2:Nat) ^ 1025 ≤ 10 ^ 400 - 1 := by norm_num
    have h7 : (2:Nat) ^ 10 ≤ 2 ^ 1025 := Nat.pow_le_pow_right (by norm_num) (by norm_num)
    show (((10 ^ 400 - 1 : Nat) : Int)) - ((digitsVal (codes "1") : Nat) : Int) > ((5 : Nat) : Int)
    have hd1 : digitsVal (codes "1") = 1 := by decide
    rw [hd1]
    omega
  · unfold clampRange
    rw [findColonSplit_complete (codes "x") (codes "1") (List.replicate 400 57)
      (by decide) (by decide) (by decide) (by simp)
      (List.all_eq_true.mpr fun c hc => by rw [List.eq_of_mem_replicate hc]; decide)]
    show (if jsNumVal (codes "1") < 2 ^ 1024 ∧ jsNumVal (List.replicate 400 57) < 2 ^ 1024 ∧
          subDouble (jsNumVal (List.replicate 400 57)) (jsNumVal (codes "1"))
            > (MAX_RANGE_SPAN : Int) then
        (codes "x" ++ [58]) ++ natCodes (jsNumVal (codes "1")) ++
          45 :: natCodes (roundDouble (jsNumVal (codes "1") + MAX_RANGE_SPAN))
      else codes "x" ++ 58 :: codes "1" ++ 45 :: List.replicate 400 57) = _
    rw [if_neg (fun hc => absurd hc.2.1 (by omega))]

/-- Lower-casing is idempotent on code units. -/
theorem toLowerU_toLowerU (n : Nat) : toLowerU (toLowerU n) = toLowerU n := by
  unfold toLowerU; split <;> (try split) <;> omega

/-- Lower-casing after upper-casing equals lower-casing. -/
theorem toLowerU_toUpperU (n : Nat) : toLowerU (toUpperU n) = toLowerU n := by
  unfold toLowerU toUpperU; split <;> (try split) <;> (try split) <;> omega

/-- Case mapping does not create or destroy whitespace. -/
theorem isWsU_toLowerU (n : Nat) : isWsU (toLowerU n) = isWsU n := by
  unfold toLowerU
  split
  · show decide _ = decide _
    rw [decide_eq_decide]
    omega
  · rfl

theorem isWsU_toUpperU (n : Nat) : isWsU (toUpperU n) = isWsU n := by
  unfold toUpperU
  split
  · show decide _ = decide _
    rw [decide_eq_decide]
    omega
  · rfl

theorem toLowerU_space : toLowerU 32 = 32 := by decide

/-- `titleCase` only changes letter case, so the whitespace profile (which
positions hold whitespace) is untouched, in any scanner state. -/
theorem tcGo_wsProfile : ∀ (l : JSStr) (st : TcSt), (tcGo st l).map isWsU = l.map isWsU := by
  intro l
  induction l with
  | nil => intro st; cases st <;> rfl
  | cons c rest ih =>
    intro st
    cases st with
    | out b =>
      show (tcGo (.out b) (c :: rest)).map isWsU = _
      unfold tcGo
      by_cases h : isLetterU c && !b
      · rw [if_pos h]
        simp only [List.map_cons, isWsU_toUpperU, ih]
      · rw [if_neg h]
        simp only [List.map_cons, ih]
    | run =>
      show (tcGo .run (c :: rest)).map isWsU = _
      unfold tcGo
      by_cases h : isLetterU c
      · rw [if_pos h]
        simp only [List.map_cons, isWsU_toLowerU, ih]
      · rw [if_neg h]
        simp only [List.map_cons, ih]

/-- Lower-casing leaves the whitespace profile untouched. -/
theorem lowerStr_wsProfile (l : JSStr) : (lowerStr l).map isWsU = l.map isWsU := by
  unfold lowerStr
  rw [List.map_map]
  exact List.map_congr_left fun c _ => isWsU_toLowerU c

/-- The output of `toLowerCase` is all-lower-case. -/
theorem lowerFixed_lowerStr (l : JSStr) : lowerFixed (lowerStr l) := by
  intro c hc
  obtain ⟨d, _, rfl⟩ := List.mem_map.mp hc
  exact toLowerU_toLowerU d

/-- Whitespace collapsing emits only spaces and units of its input. -/
theorem mem_collapseGo : ∀ (l : JSStr) (b : Bool) (c : Nat),
    c ∈ collapseGo b l → c = 32 ∨ c ∈ l := by
  intro l
  induction l with
  | nil => intro b c h; simp [collapseGo] at h
  | cons d rest ih =>
    intro b c h
    unfold collapseGo at h
    by_cases hw : isWsU d
    · rw [if_pos hw] at h
      by_cases hb : b
      · rw [if_pos hb] at h
        rcases ih true c h with h' | h'
        · exact Or.inl h'
        · exact Or.inr (by simp [h'])
      · rw [if_neg hb] at h
        rcases List.mem_cons.mp h with h' | h'
        · exact Or.inl h'
        · rcases ih true c h' with h'' | h''
          · exact Or.inl h''
          · exact Or.inr (by simp [h''])
    · rw [if_neg hw] at h
      rcases List.mem_cons.mp h with h' | h'
      · exact Or.inr (by simp [h'])
      · rcases ih false c h' with h'' | h''
        · exact Or.inl h''
        · exact Or.inr (by simp [h''])

/-- Whitespace collapsing preserves all-lower-case (a space is lower-case-fixed). -/
theorem lowerFixed_collapseGo (l : JSStr) (b : Bool) (h : lowerFixed l) :
    lowerFixed (collapseGo b l) := by
  intro c hc
  rcases mem_collapseGo l b c hc with h' | h'
  · subst h'; decide
  · exact h c h'

/-- Lower-casing undoes `titleCase` on an all-lower-case input: the scan
maps each unit by at most one case change. -/
theorem lowerStr_tcGo : ∀ (l : JSStr) (st : TcSt), lowerFixed l → lowerStr (tcGo st l) = l := by
  intro l
  induction l with
  | nil => intro st _; cases st <;> rfl
  | cons c rest ih =>
    intro st hl
    have hc : toLowerU c = c := hl c (by simp)
    have hrest : lowerFixed rest := fun d hd => hl d (by simp [hd])
    cases st with
    | out b =>
      show lowerStr (tcGo (.out b) (c :: rest)) = _
      unfold tcGo
      by_cases h : isLetterU c && !b
      · rw [if_pos h]
        show toLowerU (toUpperU c) :: lowerStr (tcGo .run rest) = c :: rest
        rw [toLowerU_toUpperU, hc, ih .run hrest]
      · rw [if_neg h]
        show toLowerU c :: lowerStr (tcGo (.out (isWordU c)) rest) = c :: rest
        rw [hc, ih _ hrest]
    | run =>
      show lowerStr (tcGo .run (c :: rest)) = _
      unfold tcGo
      by_cases h : isLetterU c
      · rw [if_pos h]
        show toLowerU (toLowerU c) :: lowerStr (tcGo .run rest) = c :: rest
        rw [toLowerU_toLowerU, hc, ih .run hrest]
      · rw [if_neg h]
        show toLowerU c :: lowerStr (tcGo (.out (isWordU c)) rest) = c :: rest
        rw [hc, ih _ hrest]

/-- Unfolding equation of `collapseGo` on a cons cell. -/
theorem collapseGo_cons (b : Bool) (c : Nat) (rest : JSStr) :
    collapseGo b (c :: rest) =
      if isWsU c then (if b then collapseGo true rest else 32 :: collapseGo true rest)
      else c :: collapseGo false rest := rfl

/-- Whitespace collapsing is idempotent (in both scanner states). -/
theorem collapseGo_idem : ∀ (l : JSStr),
    collapseGo false (collapseGo false l) = collapseGo false l ∧
    collapseGo true (collapseGo true l) = collapseGo true l := by
  intro l
  induction l with
  | nil => exact ⟨rfl, rfl⟩
  | cons c rest ih =>
    by_cases hw : isWsU c
    · constructor
      · rw [collapseGo_cons false c rest, if_pos hw, if_neg (by simp)]
        rw [collapseGo_cons false 32 (collapseGo true rest), if_pos (by decide),
          if_neg (by simp), ih.2]
      · rw [collapseGo_cons true c rest, if_pos hw, if_pos rfl]
        exact ih.2
    · constructor
      · rw [collapseGo_cons false c rest, if_neg hw]
        rw [collapseGo_cons false c (collapseGo false rest), if_neg hw, ih.1]
      · rw [collapseGo_cons true c rest, if_neg hw]
        rw [collapseGo_cons true c (collapseGo false rest), if_neg hw, ih.1]

/-- Collapsing returns the empty string only on all-whitespace input. -/
theorem collapseGo_eq_nil : ∀ (l : JSStr) (b : Bool),
    collapseGo b l = [] → ∀ c ∈ l, isWsU c = true := by
  intro l
  induction l with
  | nil => intro b _ c hc; simp at hc
  | cons d rest ih =>
    intro b h c hc
    rw [collapseGo_cons] at h
    by_cases hw : isWsU d
    · rw [if_pos hw] at h
      rcases List.mem_cons.mp hc with hc | hc
      · subst hc; exact hw
      · by_cases hb : b
        · rw [if_pos hb] at h
          exact ih true h c hc
        · rw [if_neg hb] at h
          simp at h
    · rw [if_neg hw] at h
      simp at h

/-- The head surviving a `dropWhile` fails the dropped predicate. -/
theorem head?_dropWhile_not (p : Nat → Bool) :
    ∀ (l : JSStr) (c : Nat), (l.dropWhile p).head? = some c → p c = false := by
  intro l
  induction l with
  | nil => intro c h; simp at h
  | cons d rest ih =>
    intro c h
    rw [List.dropWhile_cons] at h
    by_cases hp : p d
    · rw [if_pos hp] at h; exact ih c h
    · rw [if_neg hp] at h
      have : d = c := by simpa using h
      subst this
      simpa using hp

/-- `dropWhile` is the identity when the head already fails the predicate. -/
theorem dropWhile_eq_self_of_noLead (p : Nat → Bool) (l : JSStr)
    (h : ∀ c, l.head? = some c → p c = false) : l.dropWhile p = l := by
  cases l with
  | nil => rfl
  | cons c rest =>
    rw [List.dropWhile_cons, if_neg (by simp [h c rfl])]

/-- A trimmed string does not start with whitespace. -/
theorem noLeadWs_jsTrim (l : JSStr) : noLeadWs (jsTrim l) := by
  intro c hc
  unfold jsTrim at hc
  set u := l.dropWhile isWsU with hu
  set y := u.reverse.dropWhile isWsU with hy
  rw [List.head?_reverse] at hc
  cases hyn : y with
  | nil => rw [hyn] at hc; simp at hc
  | cons d ys =>
    have hsplit : u.reverse.takeWhile isWsU ++ y = u.reverse :=
      List.takeWhile_append_dropWhile isWsU u.reverse
    have hlast : y.getLast? = u.reverse.getLast? := by
      rw [← hsplit]
      exact (List.getLast?_append_of_ne_nil _ (by rw [hyn]; simp)).symm
    rw [hlast, List.getLast?_reverse] at hc
    exact head?_dropWhile_not isWsU l c hc

/-- A trimmed string does not end with whitespace. -/
theorem noTrailWs_jsTrim (l : JSStr) : noTrailWs (jsTrim l) := by
  intro c hc
  unfold jsTrim at hc
  rw [List.getLast?_reverse] at hc
  exact head?_dropWhile_not isWsU _ c hc

/-- Trimming is the identity on a string with no edge whitespace. -/
theorem jsTrim_eq_self (l : JSStr) (h1 : noLeadWs l) (h2 : noTrailWs l) :
    jsTrim l = l := by
  unfold jsTrim
  rw [dropWhile_eq_self_of_noLead isWsU l h1,
    dropWhile_eq_self_of_noLead isWsU l.reverse
      (fun c hc => h2 c (by rwa [List.head?_reverse] at hc)),
    List.reverse_reverse]

/-- An equal whitespace profile transports the no-leading-whitespace property. -/
theorem noLeadWs_of_wsProfile (x y : JSStr) (h : x.map isWsU = y.map isWsU)
    (hy : noLeadWs y) : noLeadWs x := by
  intro c hc
  have hx : (x.map isWsU).head? = some (isWsU c) := by
    rw [List.head?_map, hc]; rfl
  rw [h, List.head?_map] at hx
  cases hyh : y.head? with
  | none => rw [hyh] at hx; simp at hx
  | some d =>
    rw [hyh] at hx
    have : isWsU d = isWsU c := by simpa using hx
    rw [← this]
    exact hy d hyh

/-- An equal whitespace profile transports the no-trailing-whitespace property. -/
theorem noTrailWs_of_wsProfile (x y : JSStr) (h : x.map isWsU = y.map isWsU)
    (hy : noTrailWs y) : noTrailWs x := by
  intro c hc
  have hx : (x.map isWsU).getLast? = some (isWsU c) := by
    rw [List.getLast?_map, hc]; rfl
  rw [h, List.getLast?_map] at hx
  cases hyh : y.getLast? with
  | none => rw [hyh] at hx; simp at hx
  | some d =>
    rw [hyh] at hx
    have : isWsU d = isWsU c := by simpa using hx
    rw [← this]
    exact hy d hyh

/-- Collapsing preserves the absence of leading whitespace. -/
theorem noLeadWs_collapseGo (l : JSStr) (h : noLeadWs l) : noLeadWs (collapseGo false l) := by
  intro c hc
  cases l with
  | nil => simp [collapseGo] at hc
  | cons d rest =>
    rw [collapseGo_cons] at hc
    by_cases hw : isWsU d
    · exact absurd (h d rfl) (by simp [hw])
    · rw [if_neg hw] at hc
      have : d = c := by simpa using hc
      subst this
      simpa using hw

/-- Collapsing preserves the absence of trailing whitespace. -/
theorem noTrailWs_collapseGo : ∀ (l : JSStr) (b : Bool),
    noTrailWs l → noTrailWs (collapseGo b l) := by
  intro l
  induction l with
  | nil => intro b _; intro c hc; simp [collapseGo] at hc
  | cons d rest ih =>
    intro b h
    by_cases hrest : rest = []
    · subst hrest
      have hd : isWsU d = false := h d rfl
      intro c hc
      rw [collapseGo_cons, if_neg (by simp [hd])] at hc
      have : c = d := by
        cases hcc : (collapseGo false ([] : JSStr)) with
        | nil =>
          rw [hcc] at hc
          simpa using hc.symm
        | cons x xs => simp [collapseGo] at hcc
      subst this
      exact hd
    · have hrt : noTrailWs rest := by
        intro c hc
        apply h
        cases rest with
        | nil => exact absurd rfl hrest
        | cons x xs => rw [List.getLast?_cons_cons]; exact hc
      by_cases hw : isWsU d
      · have hx : noTrailWs (collapseGo true rest) := ih true hrt
        by_cases hb : b
        · intro c hc
          rw [collapseGo_cons, if_pos hw, if_pos hb] at hc
          exact hx c hc
        · intro c hc
          rw [collapseGo_cons, if_pos hw, if_neg hb] at hc
          cases hcc : collapseGo true rest with
          | nil =>
            exfalso
            have hall := collapseGo_eq_nil rest true hcc
            cases hrl : rest with
            | nil => exact hrest hrl
            | cons x xs =>
              obtain ⟨e, he⟩ : ∃ e, rest.getLast? = some e := by
                rw [hrl]
                exact ⟨(x :: xs).getLast (by simp), List.getLast?_eq_getLast _ _⟩
              have := hall e (List.mem_of_mem_getLast? he)
              rw [hrt e he] at this
              exact Bool.false_ne_true this
          | cons x xs =>
            rw [hcc] at hc
            rw [List.getLast?_cons_cons] at hc
            rw [← hcc] at hc
            exact hx c hc
      · have hx : noTrailWs (collapseGo false rest) := ih false hrt
        intro c hc
        rw [collapseGo_cons, if_neg hw] at hc
        cases hcc : collapseGo false rest with
        | nil =>
          rw [hcc] at hc
          have : c = d := by simpa using hc.symm
          subst this
          simpa using hw
        | cons x xs =>
          rw [hcc] at hc
          rw [List.getLast?_cons_cons] at hc
          rw [← hcc] at hc
          exact hx c hc

/-- Idempotence of the client canonicalizer: the output of `normalizeRef` has
no edge whitespace (so the second trim is the identity), lower-casing it
recovers the pre-`titleCase` string, and collapsing is idempotent. -/
theorem normalizeRef_idem (l : JSStr) : normalizeRef (normalizeRef l) = normalizeRef l := by
  unfold normalizeRef collapseWs titleCase
  set t := jsTrim l with ht
  set y := collapseGo false (lowerStr t) with hy
  have hlf : lowerFixed y := lowerFixed_collapseGo (lowerStr t) false (lowerFixed_lowerStr t)
  have hyLead : noLeadWs y := by
    apply noLeadWs_collapseGo
    exact noLeadWs_of_wsProfile (lowerStr t) t (lowerStr_wsProfile t) (noLeadWs_jsTrim l)
  have hyTrail : noTrailWs y := by
    apply noTrailWs_collapseGo
    exact noTrailWs_of_wsProfile (lowerStr t) t (lowerStr_wsProfile t) (noTrailWs_jsTrim l)
  have htcLead : noLeadWs (tcGo (.out false) y) :=
    noLeadWs_of_wsProfile _ y (tcGo_wsProfile y (.out false)) hyLead
  have htcTrail : noTrailWs (tcGo (.out false) y) :=
    noTrailWs_of_wsProfile _ y (tcGo_wsProfile y (.out false)) hyTrail
  rw [jsTrim_eq_self (tcGo (.out false) y) htcLead htcTrail]
  rw [lowerStr_tcGo y (.out false) hlf]
  rw [hy, (collapseGo_idem (lowerStr t)).1]


/-- C7 (amended): `canonicalize` (the client's `normalizeRef`) is idempotent
for every string and case-normalizing — it trims, lower-cases, collapses
internal whitespace, then upper-cases the first letter and lower-cases the
rest of each letter run that starts at a word boundary (not merely each
whitespace-delimited word: sub-words after an apostrophe or other non-word
unit are capitalized too, so "o'neil 3:16" gives "O'Neil 3:16"); the spec's
example holds: `canonicalize("  jOhn   3:16 ") == "John 3:16"`. -/
theorem canonicalize_idempotent_and_normalizing (x : JSStr) :
    normalizeRef (normalizeRef x) = normalizeRef x ∧
    normalizeRef (codes "  jOhn   3:16 ") = codes "John 3:16" ∧
    normalizeRef (codes "o'neil 3:16") = codes "O'Neil 3:16" :=
  ⟨normalizeRef_idem x, by decide, by decide⟩

/-- C7 counterexample: the claim's "title-cases each whitespace-delimited word
(first letter upper, rest lower)" (`specCanonicalize`) disagrees with the code
at "o'neil 3:16": the code's `\b([a-z])([a-z]*)` capitalizes the sub-word
after the apostrophe ("O'Neil"), the claimed wording does not ("O'neil"). -/
theorem canonicalize_titlecase_wording_cex :
    normalizeRef (codes "o'neil 3:16") = codes "O'Neil 3:16" ∧
    specCanonicalize (codes "o'neil 3:16") = codes "O'neil 3:16" ∧
    normalizeRef (codes "o'neil 3:16") ≠ specCanonicalize (codes "o'neil 3:16") :=
  ⟨by decide, by decide, by decide⟩

/-- `plusThen p l cont` succeeds exactly when `l` splits as a non-empty
all-`p` prefix followed by a remainder accepted by `cont`. -/
theorem plusThen_iff (p : Nat → Bool) :
    ∀ (l : JSStr) (cont : JSStr → Bool),
      plusThen p l cont = true ↔
      ∃ w r, l = w ++ r ∧ w ≠ [] ∧ (∀ c ∈ w, p c = true) ∧ cont r = true := by
  intro l
  induction l with
  | nil =>
    intro cont
    constructor
    · intro h; simp [plusThen] at h
    · rintro ⟨w, r, heq, hw, -, -⟩
      exact absurd (List.append_eq_nil.mp heq.symm).1 hw
  | cons c rest ih =>
    intro cont
    constructor
    · intro h
      rw [show plusThen p (c :: rest) cont
          = (p c && (cont rest || plusThen p rest cont)) from rfl] at h
      rw [Bool.and_eq_true, Bool.or_eq_true] at h
      obtain ⟨hc, hor⟩ := h
      rcases hor with hk | hrec
      · exact ⟨[c], rest, rfl, by simp, by simpa using hc, hk⟩
      · obtain ⟨w', r, heq, hw', hall, hk⟩ := (ih cont).mp hrec
        refine ⟨c :: w', r, by rw [heq]; rfl, by simp, ?_, hk⟩
        intro d hd
        rcases List.mem_cons.mp hd with hd | hd
        · subst hd; exact hc
        · exact hall d hd
    · rintro ⟨w, r, heq, hw, hall, hk⟩
      cases w with
      | nil => exact absurd rfl hw
      | cons c' w' =>
        have hc' : c = c' := by
          have := congrArg List.head? heq
          simpa using this
        subst hc'
        have hrest : rest = w' ++ r := by
          have := congrArg List.tail heq
          simpa using this
        rw [show plusThen p (c :: rest) cont
            = (p c && (cont rest || plusThen p rest cont)) from rfl]
        rw [Bool.and_eq_true, Bool.or_eq_true]
        refine ⟨hall c (by simp), ?_⟩
        cases w' with
        | nil =>
          left
          rw [hrest]
          simpa using hk
        | cons d w'' =>
          right
          exact (ih cont).mpr ⟨d :: w'', r, hrest, by simp,
            fun e he => hall e (by simp [he]), hk⟩

/-- `digitsThen k` matches exactly a `k`-digit prefix. -/
theorem digitsThen_iff (k : Nat) (l : JSStr) (cont : JSStr → Bool) :
    digitsThen k l cont = true ↔
    ∃ d r, l = d ++ r ∧ d.length = k ∧ (∀ c ∈ d, isDigitU c = true) ∧ cont r = true := by
  unfold digitsThen
  rw [Bool.and_eq_true, Bool.and_eq_true]
  constructor
  · rintro ⟨⟨hlen, hall⟩, hk⟩
    refine ⟨l.take k, l.drop k, (List.take_append_drop k l).symm, ?_, ?_, hk⟩
    · simpa using hlen
    · intro c hc
      exact List.all_eq_true.mp hall c hc
  · rintro ⟨d, r, heq, hlen, hall, hk⟩
    subst heq
    have htake : (d ++ r).take k = d := by
      rw [← hlen]; exact List.take_left d r
    have hdrop : (d ++ r).drop k = r := by
      rw [← hlen]; exact List.drop_left d r
    rw [htake, hdrop]
    exact ⟨⟨by simp [hlen], List.all_eq_true.mpr hall⟩, hk⟩

/-- `anyLen13` matches exactly a 1-3 digit prefix. -/
theorem anyLen13_iff (l : JSStr) (cont : JSStr → Bool) :
    anyLen13 l cont = true ↔
    ∃ d r, l = d ++ r ∧ 1 ≤ d.length ∧ d.length ≤ 3 ∧
      (∀ c ∈ d, isDigitU c = true) ∧ cont r = true := by
  unfold anyLen13
  rw [Bool.or_eq_true, Bool.or_eq_true, digitsThen_iff, digitsThen_iff, digitsThen_iff]
  constructor
  · rintro ((⟨d, r, heq, hlen, hall, hk⟩ | ⟨d, r, heq, hlen, hall, hk⟩) |
      ⟨d, r, heq, hlen, hall, hk⟩)
    · exact ⟨d, r, heq, by omega, by omega, hall, hk⟩
    · exact ⟨d, r, heq, by omega, by omega, hall, hk⟩
    · exact ⟨d, r, heq, by omega, by omega, hall, hk⟩
  · rintro ⟨d, r, heq, h1, h3, hall, hk⟩
    have : d.length = 1 ∨ d.length = 2 ∨ d.length = 3 := by omega
    rcases this with h | h | h
    · exact Or.inl (Or.inl ⟨d, r, heq, h, hall, hk⟩)
    · exact Or.inl (Or.inr ⟨d, r, heq, h, hall, hk⟩)
    · exact Or.inr ⟨d, r, heq, h, hall, hk⟩

/-- The trailing word-boundary test is exactly `noWordStart`. -/
theorem boundaryAfter_iff (r : JSStr) : boundaryAfter r = true ↔ noWordStart r := by
  cases r with
  | nil => simp [boundaryAfter, noWordStart]
  | cons c r' =>
    constructor
    · intro h d hd
      have hcd : c = d := by simpa using hd
      subst hcd
      simpa [boundaryAfter] using h
    · intro h
      have := h c rfl
      simp [boundaryAfter, this]

/-- `dashTail` matches exactly `-`, 1-3 digits, then a word boundary. -/
theorem dashTail_iff (r : JSStr) :
    dashTail r = true ↔
    ∃ v2 rest2, r = 45 :: v2 ++ rest2 ∧ chunk13 v2 ∧ noWordStart rest2 := by
  cases r with
  | nil =>
    constructor
    · intro h; simp [dashTail] at h
    · rintro ⟨v2, rest2, heq, -, -⟩; simp at heq
  | cons c r' =>
    rw [show dashTail (c :: r') = (c == 45 && anyLen13 r' boundaryAfter) from rfl]
    rw [Bool.and_eq_true, beq_iff_eq, anyLen13_iff]
    constructor
    · rintro ⟨hc, d, rest2, heq, h1, h3, hall, hb⟩
      subst hc
      exact ⟨d, rest2, by rw [heq, List.cons_append], ⟨by rw [← List.length_pos]; omega, h3, hall⟩,
        (boundaryAfter_iff rest2).mp hb⟩
    · rintro ⟨v2, rest2, heq, ⟨hne, h3, hall⟩, hb⟩
      rw [List.cons_append] at heq
      have hc : c = 45 := by
        have := congrArg List.head? heq
        simpa using this
      have hr' : r' = v2 ++ rest2 := by
        have := congrArg List.tail heq
        simpa using this
      exact ⟨hc, v2, rest2, hr', by
          have := List.length_pos.mpr hne; omega,
        h3, hall, (boundaryAfter_iff rest2).mpr hb⟩

/-- What may follow the verse digits: a boundary, or `-`, 1-3 digits and a
boundary. -/
theorem afterVerse_iff (r : JSStr) :
    afterVerse r = true ↔
    (noWordStart r ∨ ∃ v2 rest2, r = 45 :: v2 ++ rest2 ∧ chunk13 v2 ∧ noWordStart rest2) := by
  unfold afterVerse
  rw [Bool.or_eq_true, boundaryAfter_iff, dashTail_iff]

/-- `matchHere` accepts exactly the decompositions of `l` that start with the
token: word, whitespace, chapter digits, `:`, verse digits, and a legal
continuation. -/
theorem matchHere_iff (l : JSStr) :
    matchHere l = true ↔
    ∃ w sp c1 v1 rest, l = w ++ sp ++ c1 ++ 58 :: v1 ++ rest ∧
      tokenCore w sp c1 v1 ∧
      (noWordStart rest ∨
        ∃ v2 rest2, rest = 45 :: v2 ++ rest2 ∧ chunk13 v2 ∧ noWordStart rest2) := by
  constructor
  · intro h
    obtain ⟨w, r1, hl, hw, hallw, h1⟩ := (plusThen_iff isAlnumU l _).mp h
    obtain ⟨sp, r2, hr1, hsp, hallsp, h2⟩ := (plusThen_iff isWsU r1 _).mp h1
    obtain ⟨c1, r3, hr2, hc1a, hc1b, hallc1, h3⟩ := (anyLen13_iff r2 _).mp h2
    cases r3 with
    | nil => simp at h3
    | cons c r4 =>
      have h3' : (c == 58 && anyLen13 r4 afterVerse) = true := h3
      rw [Bool.and_eq_true, beq_iff_eq] at h3'
      obtain ⟨hc58, h4⟩ := h3'
      subst hc58
      obtain ⟨v1, rest, hr4, hv1a, hv1b, hallv1, h5⟩ := (anyLen13_iff r4 afterVerse).mp h4
      refine ⟨w, sp, c1, v1, rest, ?_,
        ⟨hw, hallw, hsp, hallsp, ⟨?_, hc1b, hallc1⟩, ⟨?_, hv1b, hallv1⟩⟩,
        (afterVerse_iff rest).mp h5⟩
      · rw [hl, hr1, hr2, hr4]; simp [List.append_assoc]
      · rw [← List.length_pos]; omega
      · rw [← List.length_pos]; omega
  · rintro ⟨w, sp, c1, v1, rest, heq,
      ⟨hw, hallw, hsp, hallsp, ⟨hc1ne, hc1len, hallc1⟩, ⟨hv1ne, hv1len, hallv1⟩⟩, hav⟩
    unfold matchHere
    apply (plusThen_iff isAlnumU l _).mpr
    refine ⟨w, sp ++ (c1 ++ (58 :: (v1 ++ rest))), by rw [heq]; simp [List.append_assoc],
      hw, hallw, ?_⟩
    apply (plusThen_iff isWsU _ _).mpr
    refine ⟨sp, c1 ++ (58 :: (v1 ++ rest)), rfl, hsp, hallsp, ?_⟩
    apply (anyLen13_iff _ _).mpr
    refine ⟨c1, 58 :: (v1 ++ rest), rfl, List.length_pos.mpr hc1ne, hc1len, hallc1, ?_⟩
    show (58 == 58 && anyLen13 (v1 ++ rest) afterVerse) = true
    rw [Bool.and_eq_true]
    refine ⟨by simp, ?_⟩
    apply (anyLen13_iff _ _).mpr
    exact ⟨v1, rest, rfl, List.length_pos.mpr hv1ne, hv1len, hallv1,
      (afterVerse_iff rest).mpr hav⟩

/-- The position scan succeeds exactly when some split point carries a match,
with the leading word boundary expressed on the prefix (at the string start it
is the incoming flag `b`). -/
theorem detectFrom_iff :
    ∀ (l : JSStr) (b : Bool), detectFrom b l = true ↔
      ∃ pre suf, l = pre ++ suf ∧ matchHere suf = true ∧
        ((pre = [] ∧ b = true) ∨ ∃ c, pre.getLast? = some c ∧ isWordU c = false) := by
  intro l
  induction l with
  | nil =>
    intro b
    constructor
    · intro h
      rw [show detectFrom b [] = ((b && matchHere []) || false) from rfl] at h
      have hm : matchHere ([] : JSStr) = false := rfl
      rw [hm] at h
      simp at h
    · rintro ⟨pre, suf, heq, hm, -⟩
      obtain ⟨hpre, hsuf⟩ := List.append_eq_nil.mp heq.symm
      subst hsuf
      exact absurd hm (by simp [show matchHere ([] : JSStr) = false from rfl])
  | cons c rest ih =>
    intro b
    constructor
    · intro h
      rw [show detectFrom b (c :: rest)
          = (((b && matchHere (c :: rest)) || detectFrom (!isWordU c) rest) : Bool) from rfl,
        Bool.or_eq_true, Bool.and_eq_true] at h
      rcases h with ⟨hb, hm⟩ | hrec
      · exact ⟨[], c :: rest, rfl, hm, Or.inl ⟨rfl, hb⟩⟩
      · obtain ⟨pre', suf, heq, hm, hbnd⟩ := (ih (!isWordU c)).mp hrec
        refine ⟨c :: pre', suf, by rw [heq]; rfl, hm, ?_⟩
        rcases hbnd with ⟨hpre', hbw⟩ | ⟨d, hd, hw⟩
        · subst hpre'
          exact Or.inr ⟨c, rfl, by simpa using hbw⟩
        · right
          refine ⟨d, ?_, hw⟩
          cases pre' with
          | nil => simp at hd
          | cons x xs => rw [List.getLast?_cons_cons]; exact hd
    · rintro ⟨pre, suf, heq, hm, hbnd⟩
      rw [show detectFrom b (c :: rest)
          = (((b && matchHere (c :: rest)) || detectFrom (!isWordU c) rest) : Bool) from rfl,
        Bool.or_eq_true, Bool.and_eq_true]
      cases pre with
      | nil =>
        rcases hbnd with ⟨-, hb⟩ | ⟨d, hd, -⟩
        · left
          have : suf = c :: rest := by simpa using heq.symm
          exact ⟨hb, this ▸ hm⟩
        · simp at hd
      | cons c' pre' =>
        right
        have hc' : c = c' := by
          have := congrArg List.head? heq
          simpa using this
        subst hc'
        have hrest : rest = pre' ++ suf := by
          have := congrArg List.tail heq
          simpa using this
        apply (ih (!isWordU c)).mpr
        refine ⟨pre', suf, hrest, hm, ?_⟩
        cases pre' with
        | nil =>
          rcases hbnd with ⟨habs, -⟩ | ⟨d, hd, hw⟩
          · simp at habs
          · have hdc : c = d := by simpa using hd
            subst hdc
            exact Or.inl ⟨rfl, by simp [hw]⟩
        | cons x xs =>
          rcases hbnd with ⟨habs, -⟩ | ⟨d, hd, hw⟩
          · simp at habs
          · rw [List.getLast?_cons_cons] at hd
            exact Or.inr ⟨d, hd, hw⟩

/-- C4 (amended): `detect` is true iff the text contains the token at word
boundaries — one alphanumeric word, whitespace, 1-3 digit chapter, `:`,
1-3 digit verse, optionally `-` and 1-3 digits — where additionally the word
is not preceded by a word character (letter, digit or underscore) and the
digits the match ends with are not followed by one, exactly as the `\b`
assertions of `VERSE_RE` require. -/
theorem detect_iff_boundary_token (s : JSStr) :
    looksLikeVerse s = true ↔ containsVerseTokenB s := by
  unfold looksLikeVerse
  rw [detectFrom_iff]
  constructor
  · rintro ⟨pre, suf, heq, hm, hbnd⟩
    obtain ⟨w, sp, c1, v1, rest, hsuf, hcore, hafter⟩ := (matchHere_iff suf).mp hm
    refine ⟨pre, w, sp, c1, v1, rest, ?_, hcore, ?_, hafter⟩
    · rw [heq, hsuf]; simp [List.append_assoc]
    · rcases hbnd with ⟨hpre, -⟩ | ⟨c, hc, hw⟩
      · subst hpre; intro d hd; simp at hd
      · intro d hd
        rw [hd] at hc
        have hdc : d = c := by simpa using hc
        subst hdc
        exact hw
  · rintro ⟨pre, w, sp, c1, v1, rest, heq, hcore, hend, hafter⟩
    refine ⟨pre, w ++ (sp ++ (c1 ++ (58 :: (v1 ++ rest)))), ?_, ?_, ?_⟩
    · rw [heq]; simp [List.append_assoc]
    · exact (matchHere_iff _).mpr
        ⟨w, sp, c1, v1, rest, by simp [List.append_assoc], hcore, hafter⟩
    · cases pre with
      | nil => exact Or.inl ⟨rfl, rfl⟩
      | cons x xs =>
        have hsome : ∃ y, (x :: xs).getLast? = some y :=
          ⟨(x :: xs).getLast (by simp), List.getLast?_eq_getLast _ _⟩
        obtain ⟨y, hy⟩ := hsome
        exact Or.inr ⟨y, hy, hend y hy⟩

/-- C4 counterexample: the claim's boundary-free reading is false on the code.
"John 3:1234" contains the plain token "n 3:123" continued by the digit "4"
(word "John", chapter "3", verse "123"), so the claimed characterization says
`detect` is true — but `VERSE_RE`'s trailing `\b` fails inside the digit run
"1234", and `looksLikeVerse "John 3:1234"` is false. -/
theorem detect_plain_containment_cex :
    looksLikeVerse (codes "John 3:1234") = false ∧
    containsVerseToken (codes "John 3:1234") := by
  constructor
  · decide
  · refine ⟨[], codes "John", codes " ", codes "3", codes "123", [], codes "4",
      by decide, ?_, Or.inl rfl⟩
    exact ⟨by decide, by decide, by decide, by decide,
      ⟨by decide, by decide, by decide⟩, ⟨by decide, by decide, by decide⟩⟩

/-- Inserting the inline space never empties a string. -/
theorem normalizeInline_ne_nil (l : JSStr) (h : l ≠ []) : normalizeInline l ≠ [] := by
  cases l with
  | nil => exact absurd rfl h
  | cons c rest =>
    cases rest with
    | nil => simp [normalizeInline]
    | cons d r2 =>
      rw [show normalizeInline (c :: d :: r2)
          = (if isLetterU c && isDigitU d then c :: 32 :: d :: r2
             else c :: normalizeInline (d :: r2)) from rfl]
      split <;> simp

/-- Range clamping never empties a string. -/
theorem clampRange_ne_nil (l : JSStr) (h : l ≠ []) : clampRange l ≠ [] := by
  unfold clampRange
  rcases hfc : findColonSplit l with _ | ⟨⟨p, a, b⟩⟩
  · exact h
  · show (if jsNumVal a < 2 ^ 1024 ∧ jsNumVal b < 2 ^ 1024 ∧
          subDouble (jsNumVal b) (jsNumVal a) > (MAX_RANGE_SPAN : Int) then
        p ++ natCodes (jsNumVal a) ++ 45 :: natCodes (roundDouble (jsNumVal a + MAX_RANGE_SPAN))
      else l) ≠ []
    split
    · simp
    · exact h

/-- C1 counterexample: the chat "john 3:16" from a fresh state passes
detection and admission, and the server broadcasts it verbatim — in
lower-case, which is not the canonical (title-cased) form. -/
theorem chat_broadcast_not_canonical_cex :
    (chatHandle (codes "john 3:16") (codes "alice") 100000 initAdmState).1
      = some (codes "john 3:16") ∧
    normalizeRef (codes "john 3:16") ≠ codes "john 3:16" := by
  constructor
  · decide
  · decide

/-- An alphanumeric unit is not whitespace. -/
theorem isAlnumU_not_ws (n : Nat) (h : isAlnumU n = true) : isWsU n = false := by
  unfold isAlnumU isLetterU isDigitU isUpperU isLowerU at h
  simp only [Bool.or_eq_true, decide_eq_true_eq] at h
  unfold isWsU
  simp only [decide_eq_false_iff_not]
  omega

/-- A detected text contains at least one non-whitespace unit (the head of the
matched word). -/
theorem looksLikeVerse_has_nonWs (l : JSStr) (h : looksLikeVerse l = true) :
    ∃ x ∈ l, isWsU x = false := by
  unfold looksLikeVerse at h
  obtain ⟨pre, suf, heq, hm, -⟩ := (detectFrom_iff l true).mp h
  obtain ⟨w, sp, c1, v1, rest, hsuf, hcore, -⟩ := (matchHere_iff suf).mp hm
  cases w with
  | nil => exact absurd rfl hcore.1
  | cons x w2 =>
    refine ⟨x, ?_, isAlnumU_not_ws x (hcore.2.1 x (by simp))⟩
    rw [heq, hsuf]
    simp

/-- The inline letter-digit replace keeps every unit of its input. -/
theorem mem_normalizeInline : ∀ (l : JSStr) (y : Nat), y ∈ l → y ∈ normalizeInline l := by
  intro l
  induction l with
  | nil => intro y hy; simp at hy
  | cons c rest ih =>
    cases rest with
    | nil => intro y hy; simpa [normalizeInline] using hy
    | cons d r2 =>
      intro y hy
      rw [show normalizeInline (c :: d :: r2)
          = (if isLetterU c && isDigitU d then c :: 32 :: d :: r2
             else c :: normalizeInline (d :: r2)) from rfl]
      split
      · rcases List.mem_cons.mp hy with h | h
        · simp [h]
        · simp [h]
      · rcases List.mem_cons.mp hy with h | h
        · simp [h]
        · exact List.mem_cons.mpr (Or.inr (ih y h))

/-- Range clamping keeps a non-whitespace witness: either the input survives,
or the rewritten tail contains the dash (45), which is not whitespace. -/
theorem clampRange_keeps_nonWs (l : JSStr) (h : ∃ x ∈ l, isWsU x = false) :
    ∃ x ∈ clampRange l, isWsU x = false := by
  unfold clampRange
  rcases hfc : findColonSplit l with _ | ⟨⟨p, a, b⟩⟩
  · exact h
  · show ∃ x ∈ (if jsNumVal a < 2 ^ 1024 ∧ jsNumVal b < 2 ^ 1024 ∧
          subDouble (jsNumVal b) (jsNumVal a) > (MAX_RANGE_SPAN : Int) then
        p ++ natCodes (jsNumVal a) ++ 45 :: natCodes (roundDouble (jsNumVal a + MAX_RANGE_SPAN))
      else l), isWsU x = false
    split
    · exact ⟨45, by simp, by decide⟩
    · exact h

/-- A unit that fails the dropped predicate survives `dropWhile`. -/
theorem mem_dropWhile_of_not (p : Nat → Bool) (l : JSStr) (x : Nat)
    (hx : x ∈ l) (hpx : p x = false) : x ∈ l.dropWhile p := by
  rw [← List.takeWhile_append_dropWhile p l] at hx
  rcases List.mem_append.mp hx with h | h
  · exact absurd (List.mem_takeWhile_imp h) (by simp [hpx])
  · exact h

/-- A non-whitespace unit survives trimming. -/
theorem mem_jsTrim (l : JSStr) (x : Nat) (hx : x ∈ l) (hpx : isWsU x = false) :
    x ∈ jsTrim l := by
  unfold jsTrim
  exact List.mem_reverse.mpr (mem_dropWhile_of_not isWsU _ x
    (List.mem_reverse.mpr (mem_dropWhile_of_not isWsU l x hx hpx)) hpx)

/-- A string containing a non-whitespace unit canonicalizes to a non-empty
string: trimming, lower-casing and collapsing keep such a unit, and
title-casing preserves the length. -/
theorem normalizeRef_ne_nil_of_nonWs (l : JSStr) (h : ∃ x ∈ l, isWsU x = false) :
    normalizeRef l ≠ [] := by
  obtain ⟨x, hx, hxw⟩ := h
  unfold normalizeRef titleCase collapseWs
  intro hnil
  have hlen := congrArg List.length
    (tcGo_wsProfile (collapseGo false (lowerStr (jsTrim l))) (.out false))
  rw [hnil] at hlen
  simp only [List.length_map, List.length_nil] at hlen
  have hcnil : collapseGo false (lowerStr (jsTrim l)) = [] :=
    List.length_eq_zero.mp hlen.symm
  have hmem : toLowerU x ∈ lowerStr (jsTrim l) :=
    List.mem_map.mpr ⟨x, mem_jsTrim l x hx hxw, rfl⟩
  have := collapseGo_eq_nil (lowerStr (jsTrim l)) false hcnil (toLowerU x) hmem
  rw [isWsU_toLowerU, hxw] at this
  exact Bool.false_ne_true this

/-- C1 (amended): every reference the server broadcasts for an admitted chat
message is non-empty, but the server applies only inline letter-digit spacing
and range clamping, not canonicalization; the whitespace-collapsing,
title-casing canonicalization (`normalizeRef`) is applied by each consumer
when it enqueues the broadcast reference, and the reference it stores —
`normalizeRef r` — is non-empty and canonical (a fixed point of the
normalization). -/
theorem chat_broadcast_nonempty_consumer_canonical
    (comment userId : JSStr) (now : Int) (st : AdmState) (r : JSStr)
    (h : (chatHandle comment userId now st).1 = some r) :
    r ≠ [] ∧ normalizeRef r ≠ [] ∧ normalizeRef (normalizeRef r) = normalizeRef r := by
  have key : looksLikeVerse (jsTrim comment) = true ∧
      clampRange (normalizeInline (jsTrim comment)) = r := by
    simp only [chatHandle] at h
    split at h
    next hv =>
      split at h
      next => exact ⟨hv, by simpa using h⟩
      next => simp at h
    next => simp at h
  obtain ⟨hv, hr⟩ := key
  have hnw : ∃ x ∈ r, isWsU x = false := by
    rw [← hr]
    apply clampRange_keeps_nonWs
    obtain ⟨x, hx, hxw⟩ := looksLikeVerse_has_nonWs _ hv
    exact ⟨x, mem_normalizeInline _ x hx, hxw⟩
  refine ⟨?_, normalizeRef_ne_nil_of_nonWs r hnw, normalizeRef_idem r⟩
  obtain ⟨x, hx, -⟩ := hnw
  intro hemp
  rw [hemp] at hx
  simp at hx

/-- Witness for C1's amended claim at a concrete admitted chat message. -/
theorem chat_broadcast_nonempty_consumer_canonical_witness :
    codes "john 3:16" ≠ [] ∧
    normalizeRef (codes "john 3:16") ≠ [] ∧
    normalizeRef (normalizeRef (codes "john 3:16")) = normalizeRef (codes "john 3:16") :=
  chat_broadcast_nonempty_consumer_canonical (codes "john 3:16") (codes "alice")
    100000 initAdmState (codes "john 3:16") (by decide)
